import Mathlib

/-!
Verification of the librespot audio fetch engine (`src/audio/src/fetch/receive.rs`)
against its natural-language specification.

The `RangeSet` interval structure lives in `crate::range_set`, whose source file is
not part of this tree; it is modelled from the specification (§3 "Data model").
Everything else is a direct shallow embedding of `receive.rs`.
-/

namespace Librespot

/-- Modelled from the spec: `Range: {start, length}`, representing byte offsets
`[start, start+length)`. -/
structure Range where
  start : Nat
  length : Nat
deriving Repr, DecidableEq

/-- The exclusive end offset `start + length` of a range. -/
def Range.stop (r : Range) : Nat := r.start + r.length

/-- Byte membership in a range, as a decidable Bool. -/
def Range.containsB (r : Range) (x : Nat) : Bool :=
  decide (r.start ≤ x ∧ x < r.start + r.length)

theorem Range.containsB_eq (r : Range) (x : Nat) :
    r.containsB x = true ↔ (r.start ≤ x ∧ x < r.stop) := by
  simp [Range.containsB, Range.stop]

/-- Modelled from the spec: `RangeSet`, an ordered collection of disjoint,
non-adjacent ranges (empty ranges are never stored). -/
structure RangeSet where
  ranges : List Range
deriving Repr, DecidableEq

/-- An empty range set (`RangeSet::new`). -/
def RangeSet.new : RangeSet := ⟨[]⟩

/-- Byte membership in a range set. -/
def RangeSet.memB (A : RangeSet) (x : Nat) : Bool :=
  A.ranges.any (fun r => r.containsB x)

/-- Merge two overlapping or adjacent ranges into their union interval. -/
def Range.merge (a b : Range) : Range :=
  ⟨min a.start b.start, max a.stop b.stop - min a.start b.start⟩

/-- Insert a (nonempty) range into an ordered disjoint list, merging any range it
overlaps or touches.  Modelled from the spec: "add a range (merging
overlaps/adjacencies)". -/
def insertRange : List Range → Range → List Range
  | [], r => [r]
  | a :: rest, r =>
    if r.stop < a.start then r :: a :: rest
    else if a.stop < r.start then a :: insertRange rest r
    else insertRange rest (a.merge r)

/-- `RangeSet::add_range`; empty ranges are not stored (spec §3 invariant). -/
def RangeSet.add_range (A : RangeSet) (r : Range) : RangeSet :=
  if r.length = 0 then A else ⟨insertRange A.ranges r⟩

/-- The (zero, one or two) pieces of `a` lying outside `r`. -/
def subRangeOne (a r : Range) : List Range :=
  (if a.start < min a.stop r.start then [⟨a.start, min a.stop r.start - a.start⟩] else []) ++
  (if max a.start r.stop < a.stop then
    [⟨max a.start r.stop, a.stop - max a.start r.stop⟩] else [])

/-- Subtract one range from every range of an ordered disjoint list. -/
def subList (l : List Range) (r : Range) : List Range :=
  l.flatMap (fun a => subRangeOne a r)

/-- `RangeSet::subtract_range`; subtracting an empty range is the identity. -/
def RangeSet.subtract_range (A : RangeSet) (r : Range) : RangeSet :=
  if r.length = 0 then A else ⟨subList A.ranges r⟩

/-- `RangeSet::subtract_range_set`: subtract every range of `B`. -/
def RangeSet.subtract_range_set (A B : RangeSet) : RangeSet :=
  B.ranges.foldl (fun acc r => acc.subtract_range r) A

/-- The overlap of two single ranges, if nonempty. -/
def interPiece (a b : Range) : Option Range :=
  if max a.start b.start < min a.stop b.stop then
    some ⟨max a.start b.start, min a.stop b.stop - max a.start b.start⟩
  else none

/-- `RangeSet::intersection` with another range set. -/
def RangeSet.intersection (A B : RangeSet) : RangeSet :=
  ⟨A.ranges.flatMap (fun a => B.ranges.filterMap (fun b => interPiece a b))⟩

/-- `RangeSet::is_empty`. -/
def RangeSet.is_empty (A : RangeSet) : Bool := A.ranges.isEmpty

/-- `RangeSet::get_range(i)`. -/
def RangeSet.get_range (A : RangeSet) (i : Nat) : Range := A.ranges.getD i ⟨0, 0⟩

/-- `RangeSet::len`: total number of bytes covered. -/
def RangeSet.len (A : RangeSet) : Nat := (A.ranges.map Range.length).sum

/-- `RangeSet::minus`: a copy with another set subtracted. -/
def RangeSet.minus (A B : RangeSet) : RangeSet := A.subtract_range_set B

/-- Modelled from the spec: "total covered length from an arbitrary starting
offset onward" (`RangeSet::contained_length_from_value`). -/
def RangeSet.contained_length_from_value (A : RangeSet) (v : Nat) : Nat :=
  (A.ranges.map (fun r => r.stop - max r.start v)).sum

theorem containsB_false_of_len_zero (r : Range) (h : r.length = 0) (x : Nat) :
    r.containsB x = false := by
  simp only [Range.containsB, decide_eq_false_iff_not]
  omega

theorem mem_subRangeOne (a r : Range) (x : Nat) :
    ((subRangeOne a r).any fun p => p.containsB x) = true ↔
      (a.containsB x = true ∧ r.containsB x = false) := by
  simp only [subRangeOne, Range.stop, Nat.min_def, Nat.max_def]
  split_ifs <;>
    simp only [List.any_append, List.any_cons, List.any_nil, Bool.or_false, Bool.false_or,
      Bool.or_eq_true, Range.containsB, Range.stop, decide_eq_true_eq,
      decide_eq_false_iff_not, false_or, or_false, Bool.false_eq_true, false_iff] <;>
    omega

theorem mem_subList (l : List Range) (r : Range) (x : Nat) :
    ((subList l r).any fun p => p.containsB x) = true ↔
      ((l.any fun p => p.containsB x) = true ∧ r.containsB x = false) := by
  induction l with
  | nil => simp [subList]
  | cons a rest ih =>
    have hcons : subList (a :: rest) r = subRangeOne a r ++ subList rest r := rfl
    rw [hcons]
    simp only [List.any_append, List.any_cons, Bool.or_eq_true, ih, mem_subRangeOne]
    tauto

theorem memB_subtract_range (A : RangeSet) (r : Range) (x : Nat) :
    (A.subtract_range r).memB x = true ↔
      (A.memB x = true ∧ r.containsB x = false) := by
  unfold RangeSet.subtract_range RangeSet.memB
  split_ifs with h
  · simp [containsB_false_of_len_zero r h x]
  · exact mem_subList A.ranges r x

theorem memB_foldl_subtract (l : List Range) (A : RangeSet) (x : Nat) :
    ((l.foldl (fun acc r => acc.subtract_range r) A).memB x) = true ↔
      (A.memB x = true ∧ ∀ r ∈ l, r.containsB x = false) := by
  induction l generalizing A with
  | nil => simp
  | cons r rest ih =>
    simp only [List.foldl_cons, ih, memB_subtract_range, List.mem_cons]
    constructor
    · rintro ⟨⟨hA, hr⟩, hrest⟩
      refine ⟨hA, ?_⟩
      rintro q (rfl | hq)
      · exact hr
      · exact hrest q hq
    · rintro ⟨hA, hall⟩
      exact ⟨⟨hA, hall r (Or.inl rfl)⟩, fun q hq => hall q (Or.inr hq)⟩

theorem memB_subtract_range_set (A B : RangeSet) (x : Nat) :
    (A.subtract_range_set B).memB x = true ↔
      (A.memB x = true ∧ B.memB x = false) := by
  unfold RangeSet.subtract_range_set
  rw [memB_foldl_subtract]
  unfold RangeSet.memB
  constructor
  · rintro ⟨hA, hall⟩
    refine ⟨hA, ?_⟩
    simp only [List.any_eq_false]
    intro r hr
    simp [hall r hr]
  · rintro ⟨hA, hB⟩
    refine ⟨hA, ?_⟩
    intro r hr
    have := List.any_eq_false.mp hB r hr
    simpa using this

theorem mem_insertRange (l : List Range) (r : Range) (x : Nat) :
    ((insertRange l r).any fun p => p.containsB x) = true ↔
      ((l.any fun p => p.containsB x) = true ∨ r.containsB x = true) := by
  induction l generalizing r with
  | nil => simp [insertRange]
  | cons a rest ih =>
    unfold insertRange
    split_ifs with h1 h2
    · simp only [List.any_cons, Bool.or_eq_true]
      tauto
    · simp only [List.any_cons, Bool.or_eq_true, ih]
      tauto
    · rw [ih]
      simp only [List.any_cons, Bool.or_eq_true]
      have hmerge : (a.merge r).containsB x = true ↔
          (a.containsB x = true ∨ r.containsB x = true) := by
        simp only [Range.merge, Range.containsB, Range.stop, decide_eq_true_eq]
        simp only [Range.stop] at h1 h2
        omega
      tauto

theorem memB_add_range (A : RangeSet) (r : Range) (x : Nat) :
    (A.add_range r).memB x = true ↔
      (A.memB x = true ∨ r.containsB x = true) := by
  unfold RangeSet.add_range RangeSet.memB
  split_ifs with h
  · simp [containsB_false_of_len_zero r h x]
  · exact mem_insertRange A.ranges r x

theorem mem_filterMap_interPiece (a : Range) (bs : List Range) (x : Nat) :
    ((bs.filterMap fun b => interPiece a b).any fun p => p.containsB x) = true ↔
      (a.containsB x = true ∧ (bs.any fun b => b.containsB x) = true) := by
  induction bs with
  | nil => simp
  | cons b rest ih =>
    rw [List.filterMap_cons]
    rcases h : interPiece a b with _ | p
    · have hno : ¬ (max a.start b.start < min a.stop b.stop) := by
        intro hlt
        simp [interPiece, hlt] at h
      have hb : ¬(a.containsB x = true ∧ b.containsB x = true) := by
        simp only [Range.containsB, Range.stop, decide_eq_true_eq]
        simp only [Range.stop] at hno
        omega
      simp only [ih, List.any_cons, Bool.or_eq_true]
      tauto
    · have hp : p.containsB x = true ↔ (a.containsB x = true ∧ b.containsB x = true) := by
        simp only [interPiece] at h
        split_ifs at h with hlt
        simp only [Range.stop] at hlt
        cases h
        simp only [Range.containsB, Range.stop, decide_eq_true_eq]
        omega
      simp only [List.any_cons, Bool.or_eq_true, ih, hp]
      tauto

theorem memB_intersection (A B : RangeSet) (x : Nat) :
    (A.intersection B).memB x = true ↔ (A.memB x = true ∧ B.memB x = true) := by
  unfold RangeSet.intersection RangeSet.memB
  simp only [List.any_eq_true, List.mem_flatMap]
  constructor
  · rintro ⟨p, ⟨a, ha, hp⟩, hpx⟩
    have := (mem_filterMap_interPiece a B.ranges x).mp
      (List.any_eq_true.mpr ⟨p, hp, hpx⟩)
    rcases this with ⟨hax, hbx⟩
    rcases List.any_eq_true.mp hbx with ⟨b, hb, hbx'⟩
    exact ⟨⟨a, ha, hax⟩, ⟨b, hb, hbx'⟩⟩
  · rintro ⟨⟨a, ha, hax⟩, ⟨b, hb, hbx⟩⟩
    have := (mem_filterMap_interPiece a B.ranges x).mpr
      ⟨hax, List.any_eq_true.mpr ⟨b, hb, hbx⟩⟩
    rcases List.any_eq_true.mp this with ⟨p, hp, hpx⟩
    exact ⟨p, ⟨a, ha, hp⟩, hpx⟩

/-- All stored ranges are nonempty (spec §3: empty ranges are not stored). -/
def RangeSet.Pos (A : RangeSet) : Prop := ∀ r ∈ A.ranges, 0 < r.length

/-- The stored ranges are ordered, disjoint and non-adjacent (spec §3). -/
def RangeSet.Disj (A : RangeSet) : Prop :=
  A.ranges.Pairwise (fun a b => a.stop < b.start)

/-- The full `RangeSet` well-formedness invariant from spec §3. -/
def RangeSet.Inv (A : RangeSet) : Prop := A.Disj ∧ A.Pos

theorem pos_of_mem_subRangeOne (a r p : Range) (hp : p ∈ subRangeOne a r) :
    0 < p.length := by
  simp only [subRangeOne, List.mem_append] at hp
  rcases hp with hp | hp <;> split_ifs at hp <;>
    simp only [List.mem_singleton, List.not_mem_nil] at hp <;>
    subst hp <;> simp only [Range.stop] at * <;> omega

theorem bounds_of_mem_subRangeOne (a r p : Range) (hp : p ∈ subRangeOne a r) :
    a.start ≤ p.start ∧ p.stop ≤ a.stop := by
  simp only [subRangeOne, List.mem_append] at hp
  rcases hp with hp | hp <;> split_ifs at hp <;>
    simp only [List.mem_singleton, List.not_mem_nil] at hp <;>
    subst hp <;> simp only [Range.stop] at * <;> omega

theorem mem_subList_exists (l : List Range) (r q : Range) (hq : q ∈ subList l r) :
    ∃ a ∈ l, a.start ≤ q.start ∧ q.stop ≤ a.stop := by
  simp only [subList, List.mem_flatMap] at hq
  rcases hq with ⟨a, ha, hq⟩
  exact ⟨a, ha, bounds_of_mem_subRangeOne a r q hq⟩

theorem pos_of_mem_subList (l : List Range) (r q : Range) (hq : q ∈ subList l r) :
    0 < q.length := by
  simp only [subList, List.mem_flatMap] at hq
  rcases hq with ⟨a, _, hq⟩
  exact pos_of_mem_subRangeOne a r q hq

theorem pairwise_subRangeOne (a r : Range) (hr : 0 < r.length) :
    (subRangeOne a r).Pairwise (fun p q => p.stop < q.start) := by
  unfold subRangeOne
  split_ifs with h1 h2
  · rw [List.singleton_append, List.pairwise_cons]
    refine ⟨?_, List.pairwise_singleton _ _⟩
    intro q hq
    rw [List.mem_singleton] at hq
    subst hq
    simp only [Range.stop] at *
    omega
  · exact List.pairwise_singleton _ _
  · exact List.pairwise_singleton _ _
  · exact List.Pairwise.nil

theorem disj_subList (l : List Range) (r : Range) (hr : 0 < r.length)
    (hl : l.Pairwise (fun a b => a.stop < b.start)) :
    (subList l r).Pairwise (fun a b => a.stop < b.start) := by
  induction l with
  | nil => exact List.Pairwise.nil
  | cons a rest ih =>
    rw [show subList (a :: rest) r = subRangeOne a r ++ subList rest r from rfl]
    rcases List.pairwise_cons.mp hl with ⟨hrel, hrest⟩
    rw [List.pairwise_append]
    refine ⟨pairwise_subRangeOne a r hr, ih hrest, ?_⟩
    intro p hp q hq
    rcases bounds_of_mem_subRangeOne a r p hp with ⟨_, hps⟩
    rcases mem_subList_exists rest r q hq with ⟨b, hb, hqb, _⟩
    have := hrel b hb
    omega

theorem inv_subtract_range (A : RangeSet) (r : Range) (h : A.Inv) :
    (A.subtract_range r).Inv := by
  unfold RangeSet.subtract_range
  split_ifs with hz
  · exact h
  · exact ⟨disj_subList A.ranges r (Nat.pos_of_ne_zero hz) h.1,
      fun q hq => pos_of_mem_subList A.ranges r q hq⟩

theorem inv_foldl_subtract (l : List Range) (A : RangeSet) (h : A.Inv) :
    (l.foldl (fun acc r => acc.subtract_range r) A).Inv := by
  induction l generalizing A with
  | nil => exact h
  | cons r rest ih => exact ih _ (inv_subtract_range A r h)

theorem inv_subtract_range_set (A B : RangeSet) (h : A.Inv) :
    (A.subtract_range_set B).Inv := inv_foldl_subtract B.ranges A h

theorem inv_new : RangeSet.new.Inv :=
  ⟨List.Pairwise.nil, fun r hr => absurd hr (List.not_mem_nil r)⟩

theorem inv_new_add_range (r : Range) : (RangeSet.new.add_range r).Inv := by
  unfold RangeSet.add_range
  split_ifs with hz
  · exact inv_new
  · exact ⟨List.pairwise_singleton _ _, by
      intro q hq
      simp only [RangeSet.new, insertRange, List.mem_singleton] at hq
      subst hq
      exact Nat.pos_of_ne_zero hz⟩

theorem pairwise_bytes_of_inv (A : RangeSet) (h : A.Inv) :
    A.ranges.Pairwise (fun a b => ∀ x, ¬(a.containsB x = true ∧ b.containsB x = true)) := by
  refine h.1.imp ?_
  intro a b hab x
  simp only [Range.containsB, Range.stop, decide_eq_true_eq] at *
  exact fun ⟨h1, h2⟩ => by omega

/-- All endpoints are 4-byte aligned. -/
def RangeSet.Aligned4 (A : RangeSet) : Prop :=
  ∀ r ∈ A.ranges, r.start % 4 = 0 ∧ r.length % 4 = 0

theorem aligned_of_mem_subRangeOne (a r p : Range)
    (ha : a.start % 4 = 0 ∧ a.length % 4 = 0) (hr : r.start % 4 = 0 ∧ r.length % 4 = 0)
    (hp : p ∈ subRangeOne a r) : p.start % 4 = 0 ∧ p.length % 4 = 0 := by
  simp only [subRangeOne, List.mem_append] at hp
  rcases hp with hp | hp <;> split_ifs at hp <;>
    simp only [List.mem_singleton, List.not_mem_nil] at hp <;>
    subst hp <;> simp only [Range.stop] at * <;> omega

theorem aligned_subtract_range (A : RangeSet) (r : Range) (hA : A.Aligned4)
    (hr : r.start % 4 = 0 ∧ r.length % 4 = 0) : (A.subtract_range r).Aligned4 := by
  unfold RangeSet.subtract_range
  split_ifs
  · exact hA
  · intro q hq
    simp only [subList, List.mem_flatMap] at hq
    rcases hq with ⟨a, ha, hq⟩
    exact aligned_of_mem_subRangeOne a r q (hA a ha) hr hq

theorem aligned_foldl_subtract (l : List Range) (A : RangeSet) (hA : A.Aligned4)
    (hl : ∀ r ∈ l, r.start % 4 = 0 ∧ r.length % 4 = 0) :
    (l.foldl (fun acc r => acc.subtract_range r) A).Aligned4 := by
  induction l generalizing A with
  | nil => exact hA
  | cons r rest ih =>
    exact ih _ (aligned_subtract_range A r hA (hl r (List.mem_cons_self r rest)))
      (fun q hq => hl q (List.mem_cons_of_mem r hq))

theorem aligned_subtract_range_set (A B : RangeSet) (hA : A.Aligned4) (hB : B.Aligned4) :
    (A.subtract_range_set B).Aligned4 :=
  aligned_foldl_subtract B.ranges A hA hB

theorem memB_of_mem_ranges (A : RangeSet) (r : Range) (hr : r ∈ A.ranges) (x : Nat)
    (hx : r.containsB x = true) : A.memB x = true :=
  List.any_eq_true.mpr ⟨r, hr, hx⟩

theorem containsB_start (r : Range) (h : 0 < r.length) : r.containsB r.start = true := by
  simp only [Range.containsB, decide_eq_true_eq]
  omega

theorem containsB_last (r : Range) (h : 0 < r.length) :
    r.containsB (r.start + r.length - 1) = true := by
  simp only [Range.containsB, decide_eq_true_eq]
  omega

theorem intersection_ranges_sound (A B : RangeSet) (p : Range)
    (hp : p ∈ (A.intersection B).ranges) :
    0 < p.length ∧ ∀ x, p.containsB x = true → (A.memB x = true ∧ B.memB x = true) := by
  simp only [RangeSet.intersection, List.mem_flatMap, List.mem_filterMap] at hp
  rcases hp with ⟨a, ha, b, hb, hab⟩
  simp only [interPiece] at hab
  split_ifs at hab with hlt
  cases hab
  constructor
  · simp only [Range.stop] at hlt ⊢
    omega
  · intro x hx
    simp only [Range.containsB, Range.stop, decide_eq_true_eq] at hx hlt
    constructor
    · refine memB_of_mem_ranges A a ha x ?_
      simp only [Range.containsB, decide_eq_true_eq]
      omega
    · refine memB_of_mem_ranges B b hb x ?_
      simp only [Range.containsB, decide_eq_true_eq]
      omega

/-! ## The per-request receiver (`receive_data`, receive.rs lines 64-137)

A chunk is tracked by its byte count; the data stream of a channel is a finite
list whose items are either a received chunk (`Except.ok size`) or a transport
error (`Except.error ()`); the end of the list is end-of-stream.  The elapsed
time to the first chunk is abstracted as the parameter `pingMs` (real time is
outside the embedding; the clamp to `MAXIMUM_ASSUMED_PING_TIME_SECONDS` happens
before the value is sent and is part of that abstraction). -/

/-- `PartialFileData { offset, data }`; only the offset and the byte count of
the chunk matter to the properties verified here. -/
structure PartialFileData where
  offset : Nat
  size : Nat
deriving Repr, DecidableEq

/-- `enum ReceivedData` from receive.rs. -/
inductive ReceivedData where
  | ResponseTimeMs (ms : Nat)
  | Data (d : PartialFileData)
deriving Repr, DecidableEq

/-- The state of `receive_data`'s main loop when it exits. -/
structure LoopOut where
  events : List ReceivedData
  dataOffset : Nat
  requestLength : Nat
  resultOk : Bool
  warnedOver : Bool
deriving Repr, DecidableEq

/-- The main loop of `receive_data` (receive.rs lines 77-114): forward a ping
sample on the first chunk if asked, forward every chunk, clamp over-delivery
to zero remaining, stop on zero remaining, end-of-stream or channel error. -/
def receiveLoop (pingMs : Nat) :
    Bool → Nat → Nat → List (Except Unit Nat) → LoopOut
  | _, offset, reqLen, [] => ⟨[], offset, reqLen, true, false⟩
  | _, offset, reqLen, .error _ :: _ => ⟨[], offset, reqLen, false, false⟩
  | measure, offset, reqLen, .ok sz :: rest =>
    let pings := if measure then [ReceivedData.ResponseTimeMs pingMs] else []
    let ev := ReceivedData.Data ⟨offset, sz⟩
    let offset' := offset + sz
    let clamped := decide (reqLen < sz)
    let reqLen' := if reqLen < sz then 0 else reqLen - sz
    if reqLen' = 0 then ⟨pings ++ [ev], offset', 0, true, clamped⟩
    else
      let out := receiveLoop pingMs false offset' reqLen' rest
      ⟨pings ++ ev :: out.events, out.dataOffset, out.requestLength, out.resultOk,
        clamped || out.warnedOver⟩

/-- Everything `receive_data` does that is visible outside the task. -/
structure ReceiveOut where
  events : List ReceivedData
  dataOffset : Nat
  requestLength : Nat
  requestedAfter : RangeSet
  notified : Bool
  finishSignals : Nat
  warnedOver : Bool
  resultOk : Bool
deriving Repr, DecidableEq

/-- `receive_data` (receive.rs lines 64-137): run the loop, then on exit
retract any unfulfilled trailing sub-range from the shared `requested` set and
wake all waiters, and send exactly one completion signal. -/
def receive_data (requested : RangeSet) (initialDataOffset initialRequestLength : Nat)
    (measurePingTime : Bool) (pingMs : Nat) (stream : List (Except Unit Nat)) :
    ReceiveOut :=
  let out := receiveLoop pingMs measurePingTime initialDataOffset initialRequestLength stream
  let retract := 0 < out.requestLength
  { events := out.events
    dataOffset := out.dataOffset
    requestLength := out.requestLength
    requestedAfter :=
      if retract then requested.subtract_range ⟨out.dataOffset, out.requestLength⟩
      else requested
    notified := retract
    finishSignals := 1
    warnedOver := out.warnedOver
    resultOk := out.resultOk }

/-- The number of bytes forwarded to the engine's inbox as `Data` events. -/
def forwardedBytes (events : List ReceivedData) : Nat :=
  (events.map fun e => match e with
    | .ResponseTimeMs _ => 0
    | .Data d => d.size).sum

/-- The number of `ResponseTimeMs` events in an event list. -/
def responseTimeCount (events : List ReceivedData) : Nat :=
  events.countP fun e => match e with
    | .ResponseTimeMs _ => true
    | .Data _ => false

theorem receiveLoop_offset_inv (pingMs : Nat) (stream : List (Except Unit Nat)) :
    ∀ measure offset reqLen,
      (0 < (receiveLoop pingMs measure offset reqLen stream).requestLength →
        (receiveLoop pingMs measure offset reqLen stream).dataOffset +
            (receiveLoop pingMs measure offset reqLen stream).requestLength =
          offset + reqLen) ∧
      (receiveLoop pingMs measure offset reqLen stream).dataOffset =
        offset + forwardedBytes (receiveLoop pingMs measure offset reqLen stream).events := by
  induction stream with
  | nil =>
    intro measure offset reqLen
    simp [receiveLoop, forwardedBytes]
  | cons item rest ih =>
    intro measure offset reqLen
    match item with
    | .error e => simp [receiveLoop, forwardedBytes]
    | .ok sz =>
      rcases Nat.lt_or_ge reqLen sz with hlt | hge
      · cases measure <;> simp [receiveLoop, hlt, forwardedBytes]
      · have hnlt : ¬ reqLen < sz := Nat.not_lt.mpr hge
        by_cases hz : reqLen - sz = 0
        · cases measure <;> simp [receiveLoop, hnlt, hz, forwardedBytes]
        · have hred : receiveLoop pingMs measure offset reqLen (Except.ok sz :: rest) =
              ⟨(if measure then [ReceivedData.ResponseTimeMs pingMs] else []) ++
                ReceivedData.Data ⟨offset, sz⟩ ::
                  (receiveLoop pingMs false (offset + sz) (reqLen - sz) rest).events,
                (receiveLoop pingMs false (offset + sz) (reqLen - sz) rest).dataOffset,
                (receiveLoop pingMs false (offset + sz) (reqLen - sz) rest).requestLength,
                (receiveLoop pingMs false (offset + sz) (reqLen - sz) rest).resultOk,
                decide (reqLen < sz) ||
                  (receiveLoop pingMs false (offset + sz) (reqLen - sz) rest).warnedOver⟩ := by
            simp [receiveLoop, hnlt, hz]
          rcases ih false (offset + sz) (reqLen - sz) with ⟨h1, h2⟩
          rw [hred]
          constructor
          · intro h
            dsimp only at h ⊢
            have := h1 h
            omega
          · dsimp only
            simp only [forwardedBytes, List.map_append, List.map_cons, List.sum_append,
              List.sum_cons] at h2 ⊢
            cases measure <;> simp <;> omega

/-! ## The fetch engine (`AudioFileFetch`, receive.rs lines 139-455)

Output storage is abstracted as a seek position plus the log of positional
writes `(offset, byte count)`.  The download strategy enum and the shared
`AudioFileShared`/`DownloadStatus` fields live in the sibling `fetch` module
whose file is not in this tree; they are modelled from the spec (§3). -/

/-- The output storage handle: current seek position and the positional writes
made so far. -/
structure OutputFile where
  pos : Nat
  writes : List (Nat × Nat)
deriving Repr, DecidableEq

/-- Modelled from the spec: the download strategy flag (§3). -/
inductive DownloadStrategy where
  | RandomAccess
  | Streaming
deriving Repr, DecidableEq

/-- Modelled from the spec: `DownloadStatus { requested, downloaded }` (§3). -/
structure DownloadStatus where
  requested : RangeSet
  downloaded : RangeSet
deriving Repr, DecidableEq

/-- Modelled from the spec: the named tunable constants (§6); their numeric
values are defined in the sibling `fetch` module, not in this tree. -/
structure Consts where
  minimum_download_size : Nat
  max_prefetch_requests : Nat
deriving Repr, DecidableEq

/-- The engine state: the fields of `AudioFileFetch` together with the fields
of the shared context it reads and writes.  `desired_pending_bytes` stands for
the value of the floating-point prefetch formula of `trigger_preload`
(receive.rs lines 374-382), which is outside this embedding and enters it as
an oracle input. -/
structure EngineState where
  file_size : Nat
  read_position : Nat
  download_strategy : DownloadStrategy
  download_status : DownloadStatus
  ping_time_ms : Nat
  network_response_times_ms : List Nat
  number_of_open_requests : Nat
  output : Option OutputFile
  complete_tx : Bool
  desired_pending_bytes : Nat
deriving Repr, DecidableEq

/-- An externally visible action of the engine: a range request dispatched via
`request_range` (with the receiver's measure-ping flag), or the one-shot
completion hand-off. -/
inductive TraceItem where
  | request (r : Range) (measure : Bool)
  | complete (out : OutputFile)
deriving Repr, DecidableEq

/-- The fail-fast assertions at the top of `request_range` (receive.rs 24-31):
start and length must be 4-byte aligned. -/
def request_range_asserts (offset length : Nat) : Prop :=
  offset % 4 = 0 ∧ length % 4 = 0

/-- `ControlFlow` from receive.rs. -/
inductive ControlFlow where
  | Break
  | Continue
deriving Repr, DecidableEq

/-- The range requests of a trace, in dispatch order. -/
def traceRanges (t : List TraceItem) : List Range :=
  t.filterMap fun ti => match ti with
    | .request r _ => some r
    | .complete _ => none

/-- The completion hand-offs of a trace, in order. -/
def traceCompletions (t : List TraceItem) : List OutputFile :=
  t.filterMap fun ti => match ti with
    | .request _ _ => none
    | .complete o => some o

/-- The dispatch loop of `download_range` (receive.rs 199-222): each range is
requested with measure flag `number_of_open_requests == 0`, added to
`requested` and counted, in order. -/
def dispatchStep (acc : RangeSet × Nat × List TraceItem) (r : Range) :
    RangeSet × Nat × List TraceItem :=
  (acc.1.add_range r, acc.2.1 + 1, acc.2.2 ++ [TraceItem.request r (acc.2.1 == 0)])

/-- receive.rs 165-167: bump the length to the minimum download size. -/
def dlLength1 (c : Consts) (length0 : Nat) : Nat :=
  if length0 < c.minimum_download_size then c.minimum_download_size else length0

/-- receive.rs 178-180: clamp the end of the request to the file size. -/
def dlLength2 (c : Consts) (fileSize offset0 length0 : Nat) : Nat :=
  if fileSize < offset0 + dlLength1 c length0 then fileSize - offset0 else dlLength1 c length0

/-- receive.rs 182-185: round the offset down to 4-byte alignment. -/
def dlOffset (offset0 : Nat) : Nat :=
  if offset0 % 4 ≠ 0 then offset0 - offset0 % 4 else offset0

/-- receive.rs 182-185: the length after the offset was rounded down. -/
def dlLength3 (c : Consts) (fileSize offset0 length0 : Nat) : Nat :=
  if offset0 % 4 ≠ 0 then dlLength2 c fileSize offset0 length0 + offset0 % 4
  else dlLength2 c fileSize offset0 length0

/-- receive.rs 187-189: round the length up to 4-byte alignment. -/
def dlLength4 (c : Consts) (fileSize offset0 length0 : Nat) : Nat :=
  if dlLength3 c fileSize offset0 length0 % 4 ≠ 0 then
    dlLength3 c fileSize offset0 length0 + (4 - dlLength3 c fileSize offset0 length0 % 4)
  else dlLength3 c fileSize offset0 length0

/-- receive.rs 191-197: the clamped, aligned request minus what is already
downloaded or requested. -/
def dlRanges (c : Consts) (s : EngineState) (offset0 length0 : Nat) : RangeSet :=
  ((RangeSet.new.add_range
      ⟨dlOffset offset0, dlLength4 c s.file_size offset0 length0⟩).subtract_range_set
    s.download_status.downloaded).subtract_range_set s.download_status.requested

/-- `AudioFileFetch::download_range` (receive.rs 164-223). -/
def download_range (c : Consts) (s : EngineState) (offset0 length0 : Nat) :
    EngineState × List TraceItem :=
  if s.file_size ≤ offset0 then (s, [])
  else if dlLength1 c length0 = 0 then (s, [])
  else
    let res := (dlRanges c s offset0 length0).ranges.foldl dispatchStep
      (s.download_status.requested, s.number_of_open_requests, [])
    ({ s with
        download_status := { s.download_status with requested := res.1 },
        number_of_open_requests := res.2.1 }, res.2.2)

/-- receive.rs 230-237: what is still missing, `[0, file_size)` minus
downloaded minus requested. -/
def missingData (s : EngineState) : RangeSet :=
  ((RangeSet.new.add_range ⟨0, s.file_size⟩).subtract_range_set
      s.download_status.downloaded).subtract_range_set s.download_status.requested

/-- receive.rs 239-246: the missing bytes after the current read position. -/
def tailEnd (s : EngineState) : RangeSet :=
  (RangeSet.new.add_range
      ⟨s.read_position, s.file_size - s.read_position⟩).intersection (missingData s)

/-- `AudioFileFetch::pre_fetch_more_data` (receive.rs 225-267).  Besides the
state and trace it returns the list of `(offset, length)` arguments passed to
`download_range`, for the statements about the planner's choices. -/
def pre_fetch_more_data (c : Consts) :
    EngineState → Nat → Nat → EngineState × List TraceItem × List (Nat × Nat)
  | s, _, 0 => (s, [], [])
  | s, bytesToGo, reqsToGo + 1 =>
    if bytesToGo = 0 then (s, [], [])
    else
      let missing_data := missingData s
      let tail_end := tailEnd s
      if tail_end.is_empty = false then
        let range := tail_end.get_range 0
        let offset := range.start
        let length := min range.length bytesToGo
        let res := download_range c s offset length
        let next := pre_fetch_more_data c res.1 (bytesToGo - length) reqsToGo
        (next.1, res.2 ++ next.2.1, (offset, length) :: next.2.2)
      else if missing_data.is_empty = false then
        let range := missing_data.get_range 0
        let offset := range.start
        let length := min range.length bytesToGo
        let res := download_range c s offset length
        let next := pre_fetch_more_data c res.1 (bytesToGo - length) reqsToGo
        (next.1, res.2 ++ next.2.1, (offset, length) :: next.2.2)
      else (s, [], [])

/-- `AudioFileFetch::trigger_preload` (receive.rs 359-387); the floating-point
desired-bytes formula is the oracle field of the state. -/
def trigger_preload (c : Consts) (s : EngineState) : EngineState × List TraceItem :=
  if c.max_prefetch_requests ≤ s.number_of_open_requests then (s, [])
  else
    let max_requests_to_send := c.max_prefetch_requests - s.number_of_open_requests
    let bytes_pending := (s.download_status.requested.minus s.download_status.downloaded).len
    if bytes_pending < s.desired_pending_bytes then
      let res := pre_fetch_more_data c s (s.desired_pending_bytes - bytes_pending)
        max_requests_to_send
      (res.1, res.2.1)
    else (s, [])

/-- The `ResponseTimeMs` arm of `handle_file_data` (receive.rs 271-301): push
the sample, prune the window to the 3 most recent, store the estimate
(1 sample: itself; 2: integer mean; 3: median by sorting).  The source's
`unreachable!()` arm is mapped to 0; it cannot be reached, since the window
has 1 to 4 entries after the push and at most 3 after the prune. -/
def windowEstimate (times : List Nat) : Nat :=
  match times with
  | [a] => a
  | [a, b] => (a + b) / 2
  | [a, b, c'] => (List.insertionSort (· ≤ ·) [a, b, c']).getD 1 0
  | _ => 0

def handle_response_time (s : EngineState) (ms : Nat) : EngineState :=
  let times0 := s.network_response_times_ms ++ [ms]
  let times := times0.drop (times0.length - 3)
  { s with network_response_times_ms := times, ping_time_ms := windowEstimate times }

/-- `AudioFileFetch::finish` (receive.rs 351-357): take the output, seek it to
offset 0 and send it on the one-shot completion channel.  The source unwraps
both `Option` fields (a second call would panic); the fallback arm is
unreachable, since `finish` runs at most once per engine. -/
def finish (s : EngineState) : EngineState × List TraceItem :=
  match s.output, s.complete_tx with
  | some o, true =>
    ({ s with output := none, complete_tx := false },
      [TraceItem.complete { o with pos := 0 }])
  | _, _ => (s, [])

/-- `AudioFileFetch::handle_file_data` (receive.rs 269-332). -/
def handle_file_data (s : EngineState) (data : ReceivedData) :
    EngineState × List TraceItem × ControlFlow :=
  match data with
  | .ResponseTimeMs ms => (handle_response_time s ms, [], .Continue)
  | .Data d =>
    let o := s.output.getD ⟨0, []⟩
    let o' : OutputFile := ⟨d.offset + d.size, o.writes ++ [(d.offset, d.size)]⟩
    let downloaded' := s.download_status.downloaded.add_range ⟨d.offset, d.size⟩
    let s' := { s with
      output := some o',
      download_status := { s.download_status with downloaded := downloaded' } }
    if s.file_size ≤ downloaded'.contained_length_from_value 0 then
      let res := finish s'
      (res.1, res.2, .Break)
    else (s', [], .Continue)

/-- Modelled from the spec: the engine command surface (§6); the enum is
declared in the sibling `fetch` module, not in this tree. -/
inductive StreamLoaderCommand where
  | Fetch (start length : Nat)
  | RandomAccessMode
  | StreamMode
  | Close
deriving Repr, DecidableEq

/-- `AudioFileFetch::handle_stream_loader_command` (receive.rs 334-349). -/
def handle_stream_loader_command (c : Consts) (s : EngineState)
    (cmd : StreamLoaderCommand) : EngineState × List TraceItem × ControlFlow :=
  match cmd with
  | .Fetch start length =>
    let res := download_range c s start length
    (res.1, res.2, .Continue)
  | .RandomAccessMode => ({ s with download_strategy := .RandomAccess }, [], .Continue)
  | .StreamMode =>
    let s1 := { s with download_strategy := .Streaming }
    let res := trigger_preload c s1
    (res.1, res.2, .Continue)
  | .Close => (s, [], .Break)

/-- One readiness event of the three-way `tokio::select!` (receive.rs 434-454):
`none` means the corresponding channel is closed. -/
inductive LoopEvent where
  | command (cmd : Option StreamLoaderCommand)
  | fileData (d : Option ReceivedData)
  | finishSignal (sig : Option Unit)
deriving Repr, DecidableEq

/-- One iteration of the event loop (receive.rs 434-454).  The command and
data arms treat a closed channel (`none`) as `Break`; the third arm binds the
received value with the irrefutable pattern `_` and runs its body whether the
channel yielded a value or was closed. -/
def selectStep (c : Consts) (s : EngineState) :
    LoopEvent → EngineState × List TraceItem × ControlFlow
  | .command none => (s, [], .Break)
  | .command (some cmd) => handle_stream_loader_command c s cmd
  | .fileData none => (s, [], .Break)
  | .fileData (some d) => handle_file_data s d
  | .finishSignal _ =>
    let s1 := { s with number_of_open_requests := s.number_of_open_requests - 1 }
    if s1.download_strategy = DownloadStrategy.Streaming then
      let res := trigger_preload c s1
      (res.1, res.2, .Continue)
    else (s1, [], .Continue)

/-- The event loop, driven by a finite schedule of readiness events; it stops
at the first iteration whose arm breaks. -/
def runLoop (c : Consts) : EngineState → List LoopEvent → EngineState × List TraceItem
  | s, [] => (s, [])
  | s, e :: rest =>
    let step := selectStep c s e
    match step.2.2 with
    | .Break => (step.1, step.2.1)
    | .Continue =>
      let next := runLoop c step.1 rest
      (next.1, step.2.1 ++ next.2)

/-- The entry setup of `audio_file_fetch` (receive.rs 390-432): the initial
range `[0, initial_data_length)` is pre-marked as requested, the open-request
count starts at 1, and one receiver is spawned for the initial data channel
with the measure-ping flag set to `true`.  Returns the initial engine state
and the initial receiver's range and measure flag. -/
def audio_file_fetch_init (file_size read_position initial_data_length desired : Nat)
    (strategy : DownloadStrategy) : EngineState × Range × Bool :=
  ({ file_size := file_size
     read_position := read_position
     download_strategy := strategy
     download_status :=
       { requested := RangeSet.new.add_range ⟨0, initial_data_length⟩
         downloaded := RangeSet.new }
     ping_time_ms := 0
     network_response_times_ms := []
     number_of_open_requests := 1
     output := some ⟨0, []⟩
     complete_tx := true
     desired_pending_bytes := desired },
    ⟨0, initial_data_length⟩, true)

/-! ## Lemmas about the dispatch loop and the planner -/

/-- The trace produced by the dispatch loop when the open-request count is `n`
at its start. -/
def dispatchTrace (n : Nat) : List Range → List TraceItem
  | [] => []
  | r :: rest => TraceItem.request r (n == 0) :: dispatchTrace (n + 1) rest

theorem foldl_dispatchStep (l : List Range) (rq : RangeSet) (n : Nat) (t : List TraceItem) :
    l.foldl dispatchStep (rq, n, t) =
      (l.foldl RangeSet.add_range rq, n + l.length, t ++ dispatchTrace n l) := by
  induction l generalizing rq n t with
  | nil => simp [dispatchTrace]
  | cons r rest ih =>
    simp only [List.foldl_cons, dispatchStep, ih, dispatchTrace, List.length_cons,
      Prod.mk.injEq, List.append_assoc, List.singleton_append, true_and, and_true]
    omega

theorem traceRanges_dispatchTrace (n : Nat) (l : List Range) :
    traceRanges (dispatchTrace n l) = l := by
  induction l generalizing n with
  | nil => rfl
  | cons r rest ih =>
    simp only [dispatchTrace, traceRanges, List.filterMap_cons]
    exact congrArg (r :: ·) (ih (n + 1))

theorem traceCompletions_dispatchTrace (n : Nat) (l : List Range) :
    traceCompletions (dispatchTrace n l) = [] := by
  induction l generalizing n with
  | nil => rfl
  | cons r rest ih =>
    simp only [dispatchTrace, traceCompletions, List.filterMap_cons]
    exact ih (n + 1)

theorem dispatchTrace_get (n i : Nat) (l : List Range) :
    (dispatchTrace n l).get? i =
      (l.get? i).map fun r => TraceItem.request r ((n + i) == 0) := by
  induction l generalizing n i with
  | nil => simp [dispatchTrace]
  | cons r rest ih =>
    match i with
    | 0 => simp [dispatchTrace]
    | i + 1 =>
      simp only [dispatchTrace, List.get?_cons_succ, ih]
      have : n + 1 + i = n + (i + 1) := by omega
      rw [this]

theorem memB_foldl_add (l : List Range) (A : RangeSet) (x : Nat) :
    (l.foldl RangeSet.add_range A).memB x = true ↔
      (A.memB x = true ∨ ∃ r ∈ l, r.containsB x = true) := by
  induction l generalizing A with
  | nil => simp
  | cons r rest ih =>
    simp only [List.foldl_cons, ih, memB_add_range, List.mem_cons]
    constructor
    · rintro (⟨hA | hr⟩ | ⟨q, hq, hqx⟩)
      · exact Or.inl hA
      · exact Or.inr ⟨r, Or.inl rfl, hr⟩
      · exact Or.inr ⟨q, Or.inr hq, hqx⟩
    · rintro (hA | ⟨q, (rfl | hq), hqx⟩)
      · exact Or.inl (Or.inl hA)
      · exact Or.inl (Or.inr hqx)
      · exact Or.inr ⟨q, hq, hqx⟩

theorem pos_subtract_range (A : RangeSet) (r : Range) (h : A.Pos) :
    (A.subtract_range r).Pos := by
  unfold RangeSet.subtract_range
  split_ifs
  · exact h
  · exact fun q hq => pos_of_mem_subList A.ranges r q hq

theorem pos_subtract_range_set (A B : RangeSet) (h : A.Pos) :
    (A.subtract_range_set B).Pos := by
  unfold RangeSet.subtract_range_set
  induction B.ranges generalizing A with
  | nil => exact h
  | cons r rest ih => exact ih _ (pos_subtract_range A r h)

/-- Unfolding of `download_range` in its dispatching branch. -/
theorem download_range_eq (c : Consts) (s : EngineState) (offset0 length0 : Nat)
    (h1 : ¬ s.file_size ≤ offset0) (h2 : ¬ dlLength1 c length0 = 0) :
    download_range c s offset0 length0 =
      ({ s with
          download_status := { s.download_status with
            requested := (dlRanges c s offset0 length0).ranges.foldl RangeSet.add_range
              s.download_status.requested },
          number_of_open_requests :=
            s.number_of_open_requests + (dlRanges c s offset0 length0).ranges.length },
        dispatchTrace s.number_of_open_requests (dlRanges c s offset0 length0).ranges) := by
  unfold download_range
  rw [if_neg h1, if_neg h2, foldl_dispatchStep]
  simp

theorem inv_dlRanges (c : Consts) (s : EngineState) (offset0 length0 : Nat) :
    (dlRanges c s offset0 length0).Inv :=
  inv_subtract_range_set _ _ (inv_subtract_range_set _ _ (inv_new_add_range _))

theorem memB_dlRanges (c : Consts) (s : EngineState) (offset0 length0 : Nat) (x : Nat)
    (hx : (dlRanges c s offset0 length0).memB x = true) :
    s.download_status.requested.memB x = false ∧
      s.download_status.downloaded.memB x = false := by
  unfold dlRanges at hx
  rcases (memB_subtract_range_set _ _ x).mp hx with ⟨hx2, hreq⟩
  rcases (memB_subtract_range_set _ _ x).mp hx2 with ⟨_, hdl⟩
  exact ⟨hreq, hdl⟩

/-! ## The claims -/

/-- A small concrete engine state used by the witnesses: 16-byte file, bytes
`[0, 4)` downloaded, bytes `[4, 8)` requested, no open requests. -/
def exState : EngineState :=
  { file_size := 16
    read_position := 0
    download_strategy := DownloadStrategy.RandomAccess
    download_status :=
      { requested := ⟨[⟨4, 4⟩]⟩
        downloaded := ⟨[⟨0, 4⟩]⟩ }
    ping_time_ms := 0
    network_response_times_ms := []
    number_of_open_requests := 0
    output := some ⟨0, []⟩
    complete_tx := true
    desired_pending_bytes := 0 }

/-- C1: the ranges dispatched by one `download_range` call are obtained by
subtracting both the downloaded and the requested sets from the clamped,
aligned input range, so they are pairwise disjoint, no dispatched byte is
already requested or downloaded, and the requested set afterwards is exactly
the old one with every dispatched range added (each range is added before the
lock is released, so a byte in `requested` or `downloaded` is never part of a
newly dispatched request). -/
theorem claim_c1_no_overlap (c : Consts) (s : EngineState) (offset0 length0 : Nat) :
    (traceRanges (download_range c s offset0 length0).2).Pairwise
        (fun a b => ∀ x, ¬(a.containsB x = true ∧ b.containsB x = true)) ∧
      (∀ r ∈ traceRanges (download_range c s offset0 length0).2, ∀ x,
        r.containsB x = true →
          s.download_status.requested.memB x = false ∧
            s.download_status.downloaded.memB x = false) ∧
      (download_range c s offset0 length0).1.download_status.requested =
        (traceRanges (download_range c s offset0 length0).2).foldl RangeSet.add_range
          s.download_status.requested ∧
      (∀ x, (download_range c s offset0 length0).1.download_status.requested.memB x = true ↔
        (s.download_status.requested.memB x = true ∨
          ∃ r ∈ traceRanges (download_range c s offset0 length0).2,
            r.containsB x = true)) := by
  by_cases h1 : s.file_size ≤ offset0
  · unfold download_range
    rw [if_pos h1]
    simp [traceRanges]
  · by_cases h2 : dlLength1 c length0 = 0
    · unfold download_range
      rw [if_neg h1, if_pos h2]
      simp [traceRanges]
    · rw [download_range_eq c s offset0 length0 h1 h2]
      simp only [traceRanges_dispatchTrace]
      refine ⟨pairwise_bytes_of_inv _ (inv_dlRanges c s offset0 length0), ?_, trivial, ?_⟩
      · intro r hr x hx
        exact memB_dlRanges c s offset0 length0 x (memB_of_mem_ranges _ r hr x hx)
      · intro x
        exact memB_foldl_add _ _ x

/-- Witness for C1 at a concrete call: from `exState`, `download_range 0 16`
dispatches exactly `[8, 16)`, whose bytes were neither requested nor
downloaded, and the new requested set covers byte 8. -/
theorem claim_c1_no_overlap_witness :
    (⟨8, 8⟩ : Range) ∈ traceRanges (download_range ⟨4, 4⟩ exState 0 16).2 ∧
      (⟨8, 8⟩ : Range).containsB 8 = true ∧
      (exState.download_status.requested.memB 8 = false ∧
        exState.download_status.downloaded.memB 8 = false) ∧
      ((download_range ⟨4, 4⟩ exState 0 16).1.download_status.requested.memB 8 = true ↔
        (exState.download_status.requested.memB 8 = true ∨
          ∃ r ∈ traceRanges (download_range ⟨4, 4⟩ exState 0 16).2,
            r.containsB 8 = true)) :=
  ⟨by decide, by decide,
    (claim_c1_no_overlap ⟨4, 4⟩ exState 0 16).2.1 ⟨8, 8⟩ (by decide) 8 (by decide),
    (claim_c1_no_overlap ⟨4, 4⟩ exState 0 16).2.2.2 8⟩

/-- A state builder for concrete examples: given file size, read cursor and
the two range sets; no open requests, output present, completion pending. -/
def mkState (fileSize readPos : Nat) (rq dl : RangeSet) : EngineState :=
  { file_size := fileSize
    read_position := readPos
    download_strategy := DownloadStrategy.RandomAccess
    download_status := { requested := rq, downloaded := dl }
    ping_time_ms := 0
    network_response_times_ms := []
    number_of_open_requests := 0
    output := some ⟨0, []⟩
    complete_tx := true
    desired_pending_bytes := 0 }

instance (A : RangeSet) : Decidable A.Aligned4 :=
  inferInstanceAs (Decidable (∀ r ∈ A.ranges, r.start % 4 = 0 ∧ r.length % 4 = 0))

instance (A : RangeSet) : Decidable A.Pos :=
  inferInstanceAs (Decidable (∀ r ∈ A.ranges, 0 < r.length))

theorem aligned_new_add_range (r : Range) (h : r.start % 4 = 0 ∧ r.length % 4 = 0) :
    (RangeSet.new.add_range r).Aligned4 := by
  unfold RangeSet.add_range
  split_ifs
  · exact fun q hq => absurd hq (List.not_mem_nil q)
  · intro q hq
    simp only [RangeSet.new, insertRange, List.mem_singleton] at hq
    subst hq
    exact h

theorem dlOffset_mod (offset0 : Nat) : dlOffset offset0 % 4 = 0 := by
  unfold dlOffset
  split_ifs <;> omega

theorem dlLength4_mod (c : Consts) (fs offset0 length0 : Nat) :
    dlLength4 c fs offset0 length0 % 4 = 0 := by
  unfold dlLength4
  split_ifs <;> omega

theorem aligned_dlRanges (c : Consts) (s : EngineState) (offset0 length0 : Nat)
    (hdl : s.download_status.downloaded.Aligned4)
    (hrq : s.download_status.requested.Aligned4) :
    (dlRanges c s offset0 length0).Aligned4 :=
  aligned_subtract_range_set _ _
    (aligned_subtract_range_set _ _
      (aligned_new_add_range _ ⟨dlOffset_mod offset0, dlLength4_mod c _ offset0 length0⟩)
      hdl)
    hrq

/-- Counterexample to C5 as stated: with `downloaded = {[0, 6)}` (a state the
claim quantifies over), `download_range(0, 16)` dispatches `[6, 16)`, whose
start and length are not multiples of 4, so the `request_range` assertions
would fire. -/
theorem claim_c5_counterexample :
    (download_range ⟨16, 4⟩ (mkState 32 0 ⟨[]⟩ ⟨[⟨0, 6⟩]⟩) 0 16).2 =
        [TraceItem.request ⟨6, 10⟩ true] ∧
      ¬ request_range_asserts 6 10 := by
  constructor
  · decide
  · unfold request_range_asserts
    decide

/-- C5 (amended): when every range stored in `downloaded` and `requested` has
a 4-byte-aligned start and length — as is the case whenever all writers kept
4-byte alignment — every range dispatched by `download_range` has a start and
a length that are both multiples of 4, so the fail-fast alignment assertions
at the top of `request_range` cannot fire. -/
theorem claim_c5_alignment (c : Consts) (s : EngineState) (offset0 length0 : Nat)
    (hdl : s.download_status.downloaded.Aligned4)
    (hrq : s.download_status.requested.Aligned4) :
    ∀ r ∈ traceRanges (download_range c s offset0 length0).2,
      request_range_asserts r.start r.length := by
  by_cases h1 : s.file_size ≤ offset0
  · unfold download_range
    rw [if_pos h1]
    intro r hr
    exact absurd hr (List.not_mem_nil r)
  · by_cases h2 : dlLength1 c length0 = 0
    · unfold download_range
      rw [if_neg h1, if_pos h2]
      intro r hr
      exact absurd hr (List.not_mem_nil r)
    · rw [download_range_eq c s offset0 length0 h1 h2]
      simp only [traceRanges_dispatchTrace]
      intro r hr
      exact aligned_dlRanges c s offset0 length0 hdl hrq r hr

/-- Witness for C5 at a concrete aligned state: the dispatched range `[8, 16)`
passes the `request_range` assertions. -/
theorem claim_c5_alignment_witness :
    (⟨8, 8⟩ : Range) ∈ traceRanges (download_range ⟨4, 4⟩ exState 0 16).2 ∧
      request_range_asserts 8 8 :=
  ⟨by decide,
    claim_c5_alignment ⟨4, 4⟩ exState 0 16 (by decide) (by decide) ⟨8, 8⟩ (by decide)⟩

/-- The least multiple of 4 that is not below `n`. -/
def align4up (n : Nat) : Nat := if n % 4 ≠ 0 then n + (4 - n % 4) else n

theorem dl_end_le (c : Consts) (fs offset0 length0 : Nat) (h1 : ¬ fs ≤ offset0) :
    dlOffset offset0 + dlLength4 c fs offset0 length0 ≤ align4up fs ∧
      (fs % 4 = 0 → dlOffset offset0 + dlLength4 c fs offset0 length0 ≤ fs) := by
  unfold dlOffset dlLength4 dlLength3 dlLength2 align4up
  split_ifs <;> omega

/-- Counterexample to C8 as stated: with a 22-byte file and empty range sets,
`download_range(20, 1)` (offset below the file size) dispatches `[20, 24)`,
which extends 2 bytes past the end of the file: the code clamps to the file
bounds before rounding the length up to 4-byte alignment. -/
theorem claim_c8_counterexample :
    (download_range ⟨16, 4⟩ (mkState 22 0 ⟨[]⟩ ⟨[]⟩) 20 1).2 =
        [TraceItem.request ⟨20, 4⟩ true] ∧
      20 < (mkState 22 0 ⟨[]⟩ ⟨[]⟩).file_size ∧
      ¬ (20 + 4 ≤ (mkState 22 0 ⟨[]⟩ ⟨[]⟩).file_size) := by
  refine ⟨by decide, by decide, by decide⟩

/-- C8 (amended): every range dispatched by `download_range` lies within
`[0, file_size rounded up to the next multiple of 4)`; in particular, when the
file size is a multiple of 4 every dispatched range lies entirely within
`[0, file_size)`.  (When the file size is not a multiple of 4 and the request
reaches the end of the file, the dispatched range may extend up to 3 bytes
past the file size, because clamping happens before the length is rounded up.) -/
theorem claim_c8_clamp (c : Consts) (s : EngineState) (offset0 length0 : Nat) :
    ∀ r ∈ traceRanges (download_range c s offset0 length0).2,
      r.start + r.length ≤ align4up s.file_size ∧
        (s.file_size % 4 = 0 → r.start + r.length ≤ s.file_size) := by
  by_cases h1 : s.file_size ≤ offset0
  · unfold download_range
    rw [if_pos h1]
    intro r hr
    exact absurd hr (List.not_mem_nil r)
  · by_cases h2 : dlLength1 c length0 = 0
    · unfold download_range
      rw [if_neg h1, if_pos h2]
      intro r hr
      exact absurd hr (List.not_mem_nil r)
    · rw [download_range_eq c s offset0 length0 h1 h2]
      simp only [traceRanges_dispatchTrace]
      intro r hr
      have hpos : 0 < r.length := by
        have : (dlRanges c s offset0 length0).Pos :=
          pos_subtract_range_set _ _
            (pos_subtract_range_set _ _ (inv_new_add_range _).2)
        exact this r hr
      have hmem : (dlRanges c s offset0 length0).memB (r.start + r.length - 1) = true :=
        memB_of_mem_ranges _ r hr _ (containsB_last r hpos)
      have hbase : (RangeSet.new.add_range
          ⟨dlOffset offset0, dlLength4 c s.file_size offset0 length0⟩).memB
            (r.start + r.length - 1) = true := by
        unfold dlRanges at hmem
        exact ((memB_subtract_range_set _ _ _).mp
          ((memB_subtract_range_set _ _ _).mp hmem).1).1
      have hlt : r.start + r.length - 1 <
          dlOffset offset0 + dlLength4 c s.file_size offset0 length0 := by
        rcases (memB_add_range _ _ _).mp hbase with hnew | hc
        · simp [RangeSet.new, RangeSet.memB] at hnew
        · rcases (Range.containsB_eq _ _).mp hc with ⟨_, hx⟩
          simpa [Range.stop] using hx
      rcases dl_end_le c s.file_size offset0 length0 h1 with ⟨hle, hle4⟩
      constructor
      · omega
      · intro hfs
        have := hle4 hfs
        omega

/-- Witness for C8 at a concrete call: the range `[8, 16)` dispatched from
`exState` (16-byte file) stays within the 4-byte-aligned file bound, and the
file size is a multiple of 4, so it stays within `[0, 16)`. -/
theorem claim_c8_clamp_witness :
    (⟨8, 8⟩ : Range) ∈ traceRanges (download_range ⟨4, 4⟩ exState 0 16).2 ∧
      8 + 8 ≤ align4up exState.file_size ∧
      (exState.file_size % 4 = 0 → 8 + 8 ≤ exState.file_size) :=
  ⟨by decide,
    (claim_c8_clamp ⟨4, 4⟩ exState 0 16 ⟨8, 8⟩ (by decide)).1,
    (claim_c8_clamp ⟨4, 4⟩ exState 0 16 ⟨8, 8⟩ (by decide)).2⟩

theorem windowEstimate_three (a b c' : Nat) :
    ∃ u v w, List.Perm [u, v, w] [a, b, c'] ∧ u ≤ v ∧ v ≤ w ∧
      windowEstimate [a, b, c'] = v := by
  have hperm := List.perm_insertionSort (· ≤ ·) [a, b, c']
  have hsort := List.sorted_insertionSort (· ≤ ·) [a, b, c']
  have hlen : (List.insertionSort (· ≤ ·) [a, b, c']).length = 3 := by
    rw [hperm.length_eq]
    rfl
  rcases ht : List.insertionSort (· ≤ ·) [a, b, c'] with _ | ⟨u, _ | ⟨v, _ | ⟨w, _ | ⟨y, t⟩⟩⟩⟩ <;>
    rw [ht] at hlen <;> simp at hlen
  rw [ht] at hperm hsort
  rcases List.sorted_cons.mp hsort with ⟨hu, hsort2⟩
  rcases List.sorted_cons.mp hsort2 with ⟨hv, _⟩
  refine ⟨u, v, w, hperm, hu v (by simp), hv w (by simp), ?_⟩
  show (List.insertionSort (· ≤ ·) [a, b, c']).getD 1 0 = v
  rw [ht]
  rfl

/-- C4: `ResponseTimeMs` handling keeps a window of at most the 3 most recent
samples (a 4th sample evicts the oldest), and stores as the estimate: the
sample itself for a 1-sample window, the integer mean for 2, the median for 3;
in particular feeding `[50]` yields 50, `[50, 70]` yields 60, `[50, 70, 30]`
yields 50, and a 4th sample 90 leaves the window `[70, 30, 90]`. -/
theorem claim_c4_latency_estimate (s : EngineState) (ms : Nat)
    (hlen : s.network_response_times_ms.length ≤ 3) :
    ((handle_response_time s ms).network_response_times_ms.length ≤ 3) ∧
      (s.network_response_times_ms.length < 3 →
        (handle_response_time s ms).network_response_times_ms =
          s.network_response_times_ms ++ [ms]) ∧
      (s.network_response_times_ms.length = 3 →
        (handle_response_time s ms).network_response_times_ms =
          s.network_response_times_ms.drop 1 ++ [ms]) ∧
      (∀ a, (handle_response_time s ms).network_response_times_ms = [a] →
        (handle_response_time s ms).ping_time_ms = a) ∧
      (∀ a b, (handle_response_time s ms).network_response_times_ms = [a, b] →
        (handle_response_time s ms).ping_time_ms = (a + b) / 2) ∧
      (∀ a b c', (handle_response_time s ms).network_response_times_ms = [a, b, c'] →
        ∃ u v w, List.Perm [u, v, w] [a, b, c'] ∧ u ≤ v ∧ v ≤ w ∧
          (handle_response_time s ms).ping_time_ms = v) ∧
      ([50].foldl handle_response_time (mkState 16 0 ⟨[]⟩ ⟨[]⟩)).ping_time_ms = 50 ∧
      ([50, 70].foldl handle_response_time (mkState 16 0 ⟨[]⟩ ⟨[]⟩)).ping_time_ms = 60 ∧
      ([50, 70, 30].foldl handle_response_time (mkState 16 0 ⟨[]⟩ ⟨[]⟩)).ping_time_ms = 50 ∧
      ([50, 70, 30, 90].foldl handle_response_time
          (mkState 16 0 ⟨[]⟩ ⟨[]⟩)).network_response_times_ms = [70, 30, 90] := by
  have hwin : (handle_response_time s ms).network_response_times_ms =
      (s.network_response_times_ms ++ [ms]).drop
        ((s.network_response_times_ms ++ [ms]).length - 3) := rfl
  have hping : (handle_response_time s ms).ping_time_ms =
      windowEstimate (handle_response_time s ms).network_response_times_ms := rfl
  refine ⟨?_, ?_, ?_, ?_, ?_, ?_, by decide, by decide, by decide, by decide⟩
  · rw [hwin]
    simp only [List.length_drop, List.length_append, List.length_singleton]
    omega
  · intro hl
    rw [hwin]
    have : s.network_response_times_ms.length + 1 - 3 = 0 := by omega
    simp [this]
  · intro hl
    rw [hwin]
    have h1 : (s.network_response_times_ms ++ [ms]).length - 3 = 1 := by
      simp only [List.length_append, List.length_singleton]
      omega
    rw [h1, List.drop_append_of_le_length (by omega)]
  · intro a h
    rw [hping, h]
    rfl
  · intro a b h
    rw [hping, h]
    rfl
  · intro a b c' h
    rw [hping, h]
    exact windowEstimate_three a b c'

/-- Witness for C4: from a 2-sample window `[50, 70]`, sample 30 gives the
3-sample window `[50, 70, 30]` and the median estimate 50. -/
theorem claim_c4_latency_estimate_witness :
    ({ mkState 16 0 ⟨[]⟩ ⟨[]⟩ with
        network_response_times_ms := [50, 70] } : EngineState).network_response_times_ms.length ≤ 3 ∧
      (∃ u v w, List.Perm [u, v, w] [50, 70, 30] ∧ u ≤ v ∧ v ≤ w ∧
        (handle_response_time
          { mkState 16 0 ⟨[]⟩ ⟨[]⟩ with
              network_response_times_ms := [50, 70] } 30).ping_time_ms = v) :=
  ⟨by decide,
    (claim_c4_latency_estimate
        { mkState 16 0 ⟨[]⟩ ⟨[]⟩ with network_response_times_ms := [50, 70] } 30
        (by decide)).2.2.2.2.2.1 50 70 30 (by decide)⟩

/-- C3: every terminating run of `receive_data` sends exactly one completion
signal, on success and on failure alike; and whenever a remaining length
`r > 0 ` is left unfulfilled at exit, `r` is the initial length minus the
forwarded bytes `d`, exactly the trailing sub-range
`[initial_offset + d, initial_offset + d + r)` is subtracted from the shared
`requested` set, all condition-variable waiters are notified, and those bytes
are no longer in `requested` (missing, hence re-requestable); when nothing is
left unfulfilled, `requested` is untouched and no notification happens. -/
theorem claim_c3_exit_processing (requested : RangeSet) (initialOffset initialLen : Nat)
    (measure : Bool) (pingMs : Nat) (stream : List (Except Unit Nat)) :
    (receive_data requested initialOffset initialLen measure pingMs stream).finishSignals
        = 1 ∧
      (0 < (receive_data requested initialOffset initialLen measure pingMs
            stream).requestLength →
        (receive_data requested initialOffset initialLen measure pingMs
              stream).requestLength =
            initialLen - forwardedBytes (receive_data requested initialOffset initialLen
              measure pingMs stream).events ∧
          (receive_data requested initialOffset initialLen measure pingMs
              stream).dataOffset =
            initialOffset + forwardedBytes (receive_data requested initialOffset initialLen
              measure pingMs stream).events ∧
          (receive_data requested initialOffset initialLen measure pingMs
              stream).requestedAfter =
            requested.subtract_range
              ⟨(receive_data requested initialOffset initialLen measure pingMs
                  stream).dataOffset,
                (receive_data requested initialOffset initialLen measure pingMs
                  stream).requestLength⟩ ∧
          (receive_data requested initialOffset initialLen measure pingMs
              stream).notified = true ∧
          (∀ x, (receive_data requested initialOffset initialLen measure pingMs
                stream).dataOffset ≤ x →
            x < (receive_data requested initialOffset initialLen measure pingMs
                  stream).dataOffset +
                (receive_data requested initialOffset initialLen measure pingMs
                  stream).requestLength →
            (receive_data requested initialOffset initialLen measure pingMs
                stream).requestedAfter.memB x = false)) ∧
      ((receive_data requested initialOffset initialLen measure pingMs
            stream).requestLength = 0 →
        (receive_data requested initialOffset initialLen measure pingMs
              stream).requestedAfter = requested ∧
          (receive_data requested initialOffset initialLen measure pingMs
              stream).notified = false) := by
  rcases receiveLoop_offset_inv pingMs stream measure initialOffset initialLen with ⟨h1, h2⟩
  have e1 : (receive_data requested initialOffset initialLen measure pingMs
      stream).requestLength =
      (receiveLoop pingMs measure initialOffset initialLen stream).requestLength := rfl
  have e2 : (receive_data requested initialOffset initialLen measure pingMs
      stream).dataOffset =
      (receiveLoop pingMs measure initialOffset initialLen stream).dataOffset := rfl
  have e3 : (receive_data requested initialOffset initialLen measure pingMs
      stream).events =
      (receiveLoop pingMs measure initialOffset initialLen stream).events := rfl
  refine ⟨rfl, ?_, ?_⟩
  · intro hr
    have hr' : 0 < (receiveLoop pingMs measure initialOffset initialLen
        stream).requestLength := hr
    have hsum := h1 hr'
    have hpos :
        (receive_data requested initialOffset initialLen measure pingMs
            stream).requestedAfter =
          requested.subtract_range
            ⟨(receiveLoop pingMs measure initialOffset initialLen stream).dataOffset,
              (receiveLoop pingMs measure initialOffset initialLen
                stream).requestLength⟩ := by
      unfold receive_data
      simp only [if_pos hr']
    refine ⟨by rw [e1, e3]; omega, by rw [e2, e3]; exact h2, hpos, ?_, ?_⟩
    · show decide (0 < (receiveLoop pingMs measure initialOffset initialLen
        stream).requestLength) = true
      exact decide_eq_true hr'
    · intro x hx1 hx2
      rw [e1] at hx2
      rw [e2] at hx1 hx2
      rw [hpos]
      cases hb : (requested.subtract_range
          ⟨(receiveLoop pingMs measure initialOffset initialLen stream).dataOffset,
            (receiveLoop pingMs measure initialOffset initialLen
              stream).requestLength⟩).memB x with
      | false => rfl
      | true =>
        rcases (memB_subtract_range _ _ _).mp hb with ⟨_, hcont⟩
        rw [(by simp [Range.containsB] ; omega :
          (⟨(receiveLoop pingMs measure initialOffset initialLen stream).dataOffset,
            (receiveLoop pingMs measure initialOffset initialLen
              stream).requestLength⟩ : Range).containsB x = true)] at hcont
        cases hcont
  · intro hz
    have hz' : ¬ (0 < (receiveLoop pingMs measure initialOffset initialLen
        stream).requestLength) := by
      have : (receiveLoop pingMs measure initialOffset initialLen
          stream).requestLength = 0 := hz
      omega
    constructor
    · unfold receive_data
      simp only [if_neg hz']
    · show decide (0 < (receiveLoop pingMs measure initialOffset initialLen
        stream).requestLength) = false
      exact decide_eq_false hz'

/-- Witness for C3, the spec's under-delivery example: of a 2000-byte request
starting with `requested = {[0, 2000)}`, only 1000 bytes arrive before
end-of-stream; exactly one completion signal is sent, the trailing range
`[1000, 2000)` is retracted (requested becomes `{[0, 1000)}`), waiters are
woken, and byte 1500 is missing again. -/
theorem claim_c3_exit_processing_witness :
    (receive_data ⟨[⟨0, 2000⟩]⟩ 0 2000 false 0 [Except.ok 1000]).finishSignals = 1 ∧
      0 < (receive_data ⟨[⟨0, 2000⟩]⟩ 0 2000 false 0 [Except.ok 1000]).requestLength ∧
      (receive_data ⟨[⟨0, 2000⟩]⟩ 0 2000 false 0 [Except.ok 1000]).requestedAfter =
        RangeSet.subtract_range ⟨[⟨0, 2000⟩]⟩
          ⟨(receive_data ⟨[⟨0, 2000⟩]⟩ 0 2000 false 0 [Except.ok 1000]).dataOffset,
            (receive_data ⟨[⟨0, 2000⟩]⟩ 0 2000 false 0 [Except.ok 1000]).requestLength⟩ ∧
      (receive_data ⟨[⟨0, 2000⟩]⟩ 0 2000 false 0 [Except.ok 1000]).notified = true ∧
      (receive_data ⟨[⟨0, 2000⟩]⟩ 0 2000 false 0 [Except.ok 1000]).requestedAfter.memB 1500
        = false :=
  ⟨(claim_c3_exit_processing ⟨[⟨0, 2000⟩]⟩ 0 2000 false 0 [Except.ok 1000]).1,
    by decide,
    ((claim_c3_exit_processing ⟨[⟨0, 2000⟩]⟩ 0 2000 false 0
        [Except.ok 1000]).2.1 (by decide)).2.2.1,
    ((claim_c3_exit_processing ⟨[⟨0, 2000⟩]⟩ 0 2000 false 0
        [Except.ok 1000]).2.1 (by decide)).2.2.2.1,
    ((claim_c3_exit_processing ⟨[⟨0, 2000⟩]⟩ 0 2000 false 0
        [Except.ok 1000]).2.1 (by decide)).2.2.2.2 1500 (by decide) (by decide)⟩

theorem receiveLoop_over (pingMs : Nat) (measure : Bool) (offset reqLen sz : Nat)
    (rest : List (Except Unit Nat)) (h : reqLen < sz) :
    receiveLoop pingMs measure offset reqLen (Except.ok sz :: rest) =
      ⟨(if measure then [ReceivedData.ResponseTimeMs pingMs] else []) ++
          [ReceivedData.Data ⟨offset, sz⟩],
        offset + sz, 0, true, true⟩ := by
  simp [receiveLoop, h]

/-- Counterexample to C6 as stated: a receiver with 4 bytes remaining that
gets an 8-byte chunk forwards the whole 8-byte chunk to the engine (the
`Data` event is sent before the over-delivery check), and the engine writes
all 8 bytes to output storage — the excess is not discarded. -/
theorem claim_c6_counterexample :
    (receive_data ⟨[⟨0, 4⟩]⟩ 0 4 false 0 [Except.ok 8]).events =
        [ReceivedData.Data ⟨0, 8⟩] ∧
      ¬ (8 ≤ 4) ∧
      (handle_file_data (mkState 100 0 ⟨[]⟩ ⟨[]⟩) (ReceivedData.Data ⟨0, 8⟩)).1.output =
        some ⟨8, [(0, 8)]⟩ := by
  refine ⟨by decide, by decide, by decide⟩

/-- C6 (amended): when a receiver gets a chunk whose size exceeds the
remaining requested length, the over-delivery is logged, the remaining length
is clamped to 0 so the request counts as fully satisfied (no retraction from
`requested` on exit, no waiter notification, still exactly one completion
signal) — but the excess bytes are not discarded: the entire chunk, excess
included, is forwarded to the engine as one `Data` event and written to
output storage at its offset. -/
theorem claim_c6_over_delivery (pingMs : Nat) (measure : Bool)
    (offset reqLen sz : Nat) (rest : List (Except Unit Nat)) (h : reqLen < sz) :
    ((receiveLoop pingMs measure offset reqLen (Except.ok sz :: rest)).events =
        (if measure then [ReceivedData.ResponseTimeMs pingMs] else []) ++
          [ReceivedData.Data ⟨offset, sz⟩] ∧
      (receiveLoop pingMs measure offset reqLen (Except.ok sz :: rest)).requestLength = 0 ∧
      (receiveLoop pingMs measure offset reqLen (Except.ok sz :: rest)).warnedOver = true ∧
      (receiveLoop pingMs measure offset reqLen (Except.ok sz :: rest)).resultOk = true) ∧
      (∀ requested initialOffset initialLen stream,
        (receive_data requested initialOffset initialLen measure pingMs
            stream).requestLength = 0 →
          (receive_data requested initialOffset initialLen measure pingMs
              stream).requestedAfter = requested ∧
            (receive_data requested initialOffset initialLen measure pingMs
                stream).notified = false ∧
            (receive_data requested initialOffset initialLen measure pingMs
                stream).finishSignals = 1) ∧
      (∀ (s : EngineState) (d : PartialFileData) (o : OutputFile),
        s.output = some o →
        (s.download_status.downloaded.add_range
            ⟨d.offset, d.size⟩).contained_length_from_value 0 < s.file_size →
        (handle_file_data s (ReceivedData.Data d)).1.output =
          some ⟨d.offset + d.size, o.writes ++ [(d.offset, d.size)]⟩) := by
  refine ⟨?_, ?_, ?_⟩
  · rw [receiveLoop_over pingMs measure offset reqLen sz rest h]
    exact ⟨rfl, rfl, rfl, rfl⟩
  · intro requested initialOffset initialLen stream hz
    rcases (claim_c3_exit_processing requested initialOffset initialLen measure pingMs
      stream) with ⟨hfin, _, hzero⟩
    rcases hzero hz with ⟨hreq, hnot⟩
    exact ⟨hreq, hnot, hfin⟩
  · intro s d o ho hnf
    have hc : ¬ s.file_size ≤ (s.download_status.downloaded.add_range
        ⟨d.offset, d.size⟩).contained_length_from_value 0 := by omega
    simp [handle_file_data, hc, ho]

/-- Witness for C6: with 4 bytes remaining and an 8-byte chunk, the receiver
forwards the full 8-byte `Data` event, clamps the remaining length to 0, logs
the over-delivery, and a subsequent engine state with the chunk applied shows
all 8 bytes written. -/
theorem claim_c6_over_delivery_witness :
    4 < 8 ∧
      (receiveLoop 0 false 0 4 [Except.ok 8]).events = [ReceivedData.Data ⟨0, 8⟩] ∧
      (receiveLoop 0 false 0 4 [Except.ok 8]).requestLength = 0 ∧
      (receiveLoop 0 false 0 4 [Except.ok 8]).warnedOver = true ∧
      (handle_file_data (mkState 100 0 ⟨[]⟩ ⟨[]⟩) (ReceivedData.Data ⟨0, 8⟩)).1.output =
        some ⟨8, [(0, 8)]⟩ :=
  ⟨by decide,
    (claim_c6_over_delivery 0 false 0 4 8 [] (by decide)).1.1,
    (claim_c6_over_delivery 0 false 0 4 8 [] (by decide)).1.2.1,
    (claim_c6_over_delivery 0 false 0 4 8 [] (by decide)).1.2.2.1,
    (claim_c6_over_delivery 0 false 0 4 8 [] (by decide)).2.2
      (mkState 100 0 ⟨[]⟩ ⟨[]⟩) ⟨0, 8⟩ ⟨0, []⟩ (by decide) (by decide)⟩

theorem receiveLoop_stop (pingMs : Nat) (measure : Bool) (offset reqLen sz : Nat)
    (rest : List (Except Unit Nat)) (hge : sz ≤ reqLen) (hz : reqLen - sz = 0) :
    receiveLoop pingMs measure offset reqLen (Except.ok sz :: rest) =
      ⟨(if measure then [ReceivedData.ResponseTimeMs pingMs] else []) ++
          [ReceivedData.Data ⟨offset, sz⟩],
        offset + sz, 0, true, false⟩ := by
  simp [receiveLoop, Nat.not_lt.mpr hge, hz]

theorem receiveLoop_cont (pingMs : Nat) (measure : Bool) (offset reqLen sz : Nat)
    (rest : List (Except Unit Nat)) (hge : sz ≤ reqLen) (hz : ¬ reqLen - sz = 0) :
    receiveLoop pingMs measure offset reqLen (Except.ok sz :: rest) =
      ⟨(if measure then [ReceivedData.ResponseTimeMs pingMs] else []) ++
          ReceivedData.Data ⟨offset, sz⟩ ::
            (receiveLoop pingMs false (offset + sz) (reqLen - sz) rest).events,
        (receiveLoop pingMs false (offset + sz) (reqLen - sz) rest).dataOffset,
        (receiveLoop pingMs false (offset + sz) (reqLen - sz) rest).requestLength,
        (receiveLoop pingMs false (offset + sz) (reqLen - sz) rest).resultOk,
        (receiveLoop pingMs false (offset + sz) (reqLen - sz) rest).warnedOver⟩ := by
  simp [receiveLoop, Nat.not_lt.mpr hge, hz]

theorem receiveLoop_ping (pingMs : Nat) (stream : List (Except Unit Nat)) :
    ∀ (measure : Bool) (offset reqLen : Nat),
      responseTimeCount (receiveLoop pingMs measure offset reqLen stream).events ≤ 1 ∧
        (measure = false →
          responseTimeCount (receiveLoop pingMs measure offset reqLen stream).events = 0) ∧
        ((receiveLoop pingMs measure offset reqLen stream).events.head? =
            some (ReceivedData.ResponseTimeMs pingMs) ↔
          (measure = true ∧ ∃ sz, stream.head? = some (Except.ok sz))) := by
  induction stream with
  | nil => intro measure offset reqLen; simp [receiveLoop, responseTimeCount]
  | cons item rest ih =>
    intro measure offset reqLen
    match item with
    | .error e => simp [receiveLoop, responseTimeCount]
    | .ok sz =>
      rcases Nat.lt_or_ge reqLen sz with hlt | hge
      · rw [receiveLoop_over pingMs measure offset reqLen sz rest hlt]
        cases measure <;> simp [responseTimeCount]
      · by_cases hz : reqLen - sz = 0
        · rw [receiveLoop_stop pingMs measure offset reqLen sz rest hge hz]
          cases measure <;> simp [responseTimeCount]
        · rw [receiveLoop_cont pingMs measure offset reqLen sz rest hge hz]
          have h0 := (ih false (offset + sz) (reqLen - sz)).2.1 rfl
          simp only [responseTimeCount] at h0 ⊢
          cases measure <;> simp [List.countP_append, List.countP_cons, h0]

/-- C10: a `ResponseTimeMs` sample is posted at most once per receiver,
exactly at its first received chunk and only when its measure flag is set
(and its value is the receiver's elapsed-time measurement); `download_range`
sets the measure flag of the i-th receiver it spawns to
`number_of_open_requests == 0`, which holds only for the first dispatch of a
call made while no other request was open; and the initial request of
`audio_file_fetch` always measures. -/
theorem claim_c10_ping_measurement :
    (∀ (requested : RangeSet) (initialOffset initialLen : Nat) (measure : Bool)
        (pingMs : Nat) (stream : List (Except Unit Nat)),
      responseTimeCount (receive_data requested initialOffset initialLen measure pingMs
          stream).events ≤ 1 ∧
        (measure = false →
          responseTimeCount (receive_data requested initialOffset initialLen measure
            pingMs stream).events = 0) ∧
        ((receive_data requested initialOffset initialLen measure pingMs
              stream).events.head? = some (ReceivedData.ResponseTimeMs pingMs) ↔
          (measure = true ∧ ∃ sz, stream.head? = some (Except.ok sz)))) ∧
      (∀ (c : Consts) (s : EngineState) (offset0 length0 : Nat) (i : Nat) (r : Range)
          (b : Bool),
        (download_range c s offset0 length0).2.get? i = some (TraceItem.request r b) →
          (b = true ↔ (s.number_of_open_requests = 0 ∧ i = 0))) ∧
      (∀ (fs rp il d : Nat) (st : DownloadStrategy),
        (audio_file_fetch_init fs rp il d st).2.2 = true) := by
  refine ⟨?_, ?_, ?_⟩
  · intro requested initialOffset initialLen measure pingMs stream
    exact receiveLoop_ping pingMs stream measure initialOffset initialLen
  · intro c s offset0 length0 i r b h
    have hnil : ∀ j, (([] : List TraceItem)).get? j = none := fun j => by
      cases j <;> rfl
    by_cases h1 : s.file_size ≤ offset0
    · unfold download_range at h
      rw [if_pos h1] at h
      rw [hnil i] at h
      cases h
    · by_cases h2 : dlLength1 c length0 = 0
      · unfold download_range at h
        rw [if_neg h1, if_pos h2] at h
        rw [hnil i] at h
        cases h
      · rw [download_range_eq c s offset0 length0 h1 h2] at h
        rw [dispatchTrace_get] at h
        rcases hq : (dlRanges c s offset0 length0).ranges.get? i with _ | q
        · rw [hq] at h
          simp at h
        · rw [hq] at h
          simp only [Option.map_some', Option.some.injEq, TraceItem.request.injEq] at h
          rcases h with ⟨rfl, hb⟩
          rw [← hb]
          simp only [beq_iff_eq]
          omega
  · intro fs rp il d st
    rfl

/-- Witness for C10: a receiver with the flag set posts exactly one sample at
the head of its events; the single range dispatched from `exState` (no open
requests) measures; a second call made with one open request does not. -/
theorem claim_c10_ping_measurement_witness :
    responseTimeCount (receive_data ⟨[]⟩ 0 8 true 42 [Except.ok 8]).events ≤ 1 ∧
      ((receive_data ⟨[]⟩ 0 8 true 42 [Except.ok 8]).events.head? =
          some (ReceivedData.ResponseTimeMs 42) ↔
        (true = true ∧ ∃ sz, [Except.ok (ε := Unit) 8].head? = some (Except.ok sz))) ∧
      ((download_range ⟨4, 4⟩ exState 0 16).2.get? 0 =
        some (TraceItem.request ⟨8, 8⟩ true)) ∧
      (true = true ↔ (exState.number_of_open_requests = 0 ∧ 0 = 0)) ∧
      (audio_file_fetch_init 16 0 8 0 DownloadStrategy.RandomAccess).2.2 = true :=
  ⟨(claim_c10_ping_measurement.1 ⟨[]⟩ 0 8 true 42 [Except.ok 8]).1,
    (claim_c10_ping_measurement.1 ⟨[]⟩ 0 8 true 42 [Except.ok 8]).2.2,
    by decide,
    claim_c10_ping_measurement.2.1 ⟨4, 4⟩ exState 0 16 0 ⟨8, 8⟩ true (by decide),
    claim_c10_ping_measurement.2.2 16 0 8 0 DownloadStrategy.RandomAccess⟩

/-- Counterexample to C9 as stated: on closure of the download-finish channel
(event `finishSignal none`) the loop does not break; the arm runs its ordinary
body — it decrements the open-request count and continues. -/
theorem claim_c9_counterexample :
    (selectStep ⟨4, 4⟩ exState (LoopEvent.finishSignal none)).2.2 =
        ControlFlow.Continue ∧
      ¬ ((selectStep ⟨4, 4⟩ exState (LoopEvent.finishSignal none)).2.2 =
        ControlFlow.Break) ∧
      (selectStep ⟨4, 4⟩ exState (LoopEvent.finishSignal none)).1.number_of_open_requests
        = exState.number_of_open_requests - 1 := by
  refine ⟨by decide, by decide, by decide⟩

/-- C9 (amended): a closed command channel or a closed data-event inbox is
treated as `Close` (the loop breaks), but the request-completion arm binds its
value with the irrefutable pattern `_`: closure of the completion-signal
source is processed exactly like an ordinary request-finished signal — the
open-request count is decremented, the prefetch trigger re-runs when the
strategy is `Streaming`, and the loop continues.  (In the program as composed
this closure cannot occur while the loop runs, because the engine itself
retains a sender for that channel.) -/
theorem claim_c9_finish_channel_closed (c : Consts) (s : EngineState) :
    (selectStep c s (LoopEvent.command none)).2.2 = ControlFlow.Break ∧
      (selectStep c s (LoopEvent.fileData none)).2.2 = ControlFlow.Break ∧
      selectStep c s (LoopEvent.finishSignal none) =
        selectStep c s (LoopEvent.finishSignal (some ())) ∧
      (selectStep c s (LoopEvent.finishSignal none)).2.2 = ControlFlow.Continue ∧
      (¬ s.download_strategy = DownloadStrategy.Streaming →
        (selectStep c s (LoopEvent.finishSignal none)).1 =
            { s with number_of_open_requests := s.number_of_open_requests - 1 } ∧
          (selectStep c s (LoopEvent.finishSignal none)).2.1 = []) ∧
      (s.download_strategy = DownloadStrategy.Streaming →
        (selectStep c s (LoopEvent.finishSignal none)).1 =
          (trigger_preload c
            { s with number_of_open_requests := s.number_of_open_requests - 1 }).1 ∧
        (selectStep c s (LoopEvent.finishSignal none)).2.1 =
          (trigger_preload c
            { s with number_of_open_requests := s.number_of_open_requests - 1 }).2) := by
  refine ⟨rfl, rfl, rfl, ?_, ?_, ?_⟩
  · simp only [selectStep]
    split_ifs <;> rfl
  · intro hns
    simp only [selectStep]
    rw [if_neg hns]
    exact ⟨rfl, rfl⟩
  · intro hs
    simp only [selectStep]
    rw [if_pos hs]
    exact ⟨rfl, rfl⟩

/-- Witness for C9 at a concrete state (`exState`, random-access strategy):
the finish-signal arm continues, leaves the trace empty and only decrements
the count. -/
theorem claim_c9_finish_channel_closed_witness :
    ¬ exState.download_strategy = DownloadStrategy.Streaming ∧
      (selectStep ⟨4, 4⟩ exState (LoopEvent.finishSignal none)).2.2 =
        ControlFlow.Continue ∧
      (selectStep ⟨4, 4⟩ exState (LoopEvent.finishSignal none)).1 =
        { exState with number_of_open_requests := exState.number_of_open_requests - 1 } :=
  ⟨by decide,
    (claim_c9_finish_channel_closed ⟨4, 4⟩ exState).2.2.2.1,
    ((claim_c9_finish_channel_closed ⟨4, 4⟩ exState).2.2.2.2.1 (by decide)).1⟩

theorem mem_traceCompletions (t : List TraceItem) (o : OutputFile) :
    o ∈ traceCompletions t ↔ TraceItem.complete o ∈ t := by
  unfold traceCompletions
  rw [List.mem_filterMap]
  constructor
  · rintro ⟨ti, hti, hf⟩
    match ti with
    | .request r b => cases hf
    | .complete o' =>
      simp only [Option.some.injEq] at hf
      subst hf
      exact hti
  · intro h
    exact ⟨TraceItem.complete o, h, rfl⟩

theorem traceCompletions_append (t1 t2 : List TraceItem) :
    traceCompletions (t1 ++ t2) = traceCompletions t1 ++ traceCompletions t2 :=
  List.filterMap_append t1 t2 _

theorem traceCompletions_download_range (c : Consts) (s : EngineState)
    (offset0 length0 : Nat) :
    traceCompletions (download_range c s offset0 length0).2 = [] := by
  by_cases h1 : s.file_size ≤ offset0
  · unfold download_range
    rw [if_pos h1]
    rfl
  · by_cases h2 : dlLength1 c length0 = 0
    · unfold download_range
      rw [if_neg h1, if_pos h2]
      rfl
    · rw [download_range_eq c s offset0 length0 h1 h2]
      exact traceCompletions_dispatchTrace _ _

theorem traceCompletions_pre_fetch (c : Consts) :
    ∀ (reqsToGo : Nat) (s : EngineState) (bytesToGo : Nat),
      traceCompletions (pre_fetch_more_data c s bytesToGo reqsToGo).2.1 = [] := by
  intro reqsToGo
  induction reqsToGo with
  | zero => intro s bytesToGo; rfl
  | succ n ih =>
    intro s bytesToGo
    simp only [pre_fetch_more_data]
    split_ifs <;>
      first
      | rfl
      | (rw [traceCompletions_append, traceCompletions_download_range, ih]; rfl)

theorem traceCompletions_trigger_preload (c : Consts) (s : EngineState) :
    traceCompletions (trigger_preload c s).2 = [] := by
  simp only [trigger_preload]
  split_ifs <;>
    first
    | rfl
    | exact traceCompletions_pre_fetch c _ _ _

/-- In one loop iteration, a completion hand-off is emitted only by a `Data`
event that reaches full coverage: the step then breaks, the handed-off output
is positioned at 0, the one-shot sender was still available and is consumed,
and the hand-off is the step's entire trace. -/
theorem selectStep_complete (c : Consts) (s : EngineState) (e : LoopEvent)
    (o : OutputFile) (ho : TraceItem.complete o ∈ (selectStep c s e).2.1) :
    (selectStep c s e).2.2 = ControlFlow.Break ∧
      o.pos = 0 ∧
      s.complete_tx = true ∧
      (selectStep c s e).2.1 = [TraceItem.complete o] ∧
      ∃ d, e = LoopEvent.fileData (some (ReceivedData.Data d)) ∧
        s.file_size ≤ (s.download_status.downloaded.add_range
          ⟨d.offset, d.size⟩).contained_length_from_value 0 := by
  match e with
  | .command none => exact absurd ho (List.not_mem_nil _)
  | .command (some cmd) =>
    match cmd with
    | .Fetch a b =>
      have hm : o ∈ traceCompletions (download_range c s a b).2 :=
        (mem_traceCompletions _ o).mpr ho
      rw [traceCompletions_download_range] at hm
      exact absurd hm (List.not_mem_nil o)
    | .RandomAccessMode => exact absurd ho (List.not_mem_nil _)
    | .StreamMode =>
      have hm : o ∈ traceCompletions
          (trigger_preload c { s with download_strategy := DownloadStrategy.Streaming }).2 :=
        (mem_traceCompletions _ o).mpr ho
      rw [traceCompletions_trigger_preload] at hm
      exact absurd hm (List.not_mem_nil o)
    | .Close => exact absurd ho (List.not_mem_nil _)
  | .fileData none => exact absurd ho (List.not_mem_nil _)
  | .fileData (some (.ResponseTimeMs ms)) => exact absurd ho (List.not_mem_nil _)
  | .fileData (some (.Data d)) =>
    by_cases hfull : s.file_size ≤ (s.download_status.downloaded.add_range
        ⟨d.offset, d.size⟩).contained_length_from_value 0
    · cases htx : s.complete_tx with
      | false =>
        have hitems : (selectStep c s (LoopEvent.fileData (some (ReceivedData.Data d)))).2.1
            = [] := by
          simp only [selectStep, handle_file_data]
          rw [if_pos hfull]
          simp only [finish, htx]
        rw [hitems] at ho
        exact absurd ho (List.not_mem_nil _)
      | true =>
        have hitems : (selectStep c s (LoopEvent.fileData (some (ReceivedData.Data d)))).2.1
            = [TraceItem.complete
                ⟨0, (s.output.getD ⟨0, []⟩).writes ++ [(d.offset, d.size)]⟩] := by
          simp only [selectStep, handle_file_data]
          rw [if_pos hfull]
          simp only [finish, htx]
        have hflow : (selectStep c s (LoopEvent.fileData (some (ReceivedData.Data d)))).2.2
            = ControlFlow.Break := by
          simp only [selectStep, handle_file_data]
          rw [if_pos hfull]
        rw [hitems] at ho
        rw [List.mem_singleton] at ho
        simp only [TraceItem.complete.injEq] at ho
        subst ho
        exact ⟨hflow, rfl, rfl, hitems, d, rfl, hfull⟩
    · have hitems : (selectStep c s (LoopEvent.fileData (some (ReceivedData.Data d)))).2.1
          = [] := by
        simp only [selectStep, handle_file_data]
        rw [if_neg hfull]
      rw [hitems] at ho
      exact absurd ho (List.not_mem_nil _)
  | .finishSignal sig =>
    have hm : TraceItem.complete o ∈ (selectStep c s (LoopEvent.finishSignal sig)).2.1 := ho
    simp only [selectStep] at hm
    split_ifs at hm
    · have := (mem_traceCompletions _ o).mpr hm
      rw [traceCompletions_trigger_preload] at this
      exact absurd this (List.not_mem_nil o)
    · exact absurd hm (List.not_mem_nil _)

theorem runLoop_cons_break (c : Consts) (s : EngineState) (e : LoopEvent)
    (rest : List LoopEvent) (hf : (selectStep c s e).2.2 = ControlFlow.Break) :
    runLoop c s (e :: rest) = ((selectStep c s e).1, (selectStep c s e).2.1) := by
  simp only [runLoop]
  rw [hf]

theorem runLoop_cons_cont (c : Consts) (s : EngineState) (e : LoopEvent)
    (rest : List LoopEvent) (hf : (selectStep c s e).2.2 = ControlFlow.Continue) :
    runLoop c s (e :: rest) =
      ((runLoop c (selectStep c s e).1 rest).1,
        (selectStep c s e).2.1 ++ (runLoop c (selectStep c s e).1 rest).2) := by
  simp only [runLoop]
  rw [hf]

/-- Over any run of the event loop, the trace contains at most one completion
hand-off; when there is one, it is positioned at offset 0 and it is the very
last item of the trace — in particular no request is dispatched after it. -/
theorem runLoop_complete_shape (c : Consts) :
    ∀ (events : List LoopEvent) (s : EngineState),
      traceCompletions (runLoop c s events).2 = [] ∨
        ∃ t1 o, (runLoop c s events).2 = t1 ++ [TraceItem.complete o] ∧
          traceCompletions t1 = [] ∧ o.pos = 0 := by
  intro events
  induction events with
  | nil => intro s; left; rfl
  | cons e rest ih =>
    intro s
    rcases hf : (selectStep c s e).2.2 with _ | _
    · rcases hc : traceCompletions (selectStep c s e).2.1 with _ | ⟨o, tail⟩
      · left
        rw [runLoop_cons_break c s e rest hf]
        exact hc
      · have hmem : TraceItem.complete o ∈ (selectStep c s e).2.1 :=
          (mem_traceCompletions _ _).mp (by rw [hc]; exact List.mem_cons_self o tail)
        rcases selectStep_complete c s e o hmem with ⟨_, hpos, _, hitems, _⟩
        right
        refine ⟨[], o, ?_, rfl, hpos⟩
        rw [runLoop_cons_break c s e rest hf]
        rw [List.nil_append]
        exact hitems
    · have hni : traceCompletions (selectStep c s e).2.1 = [] := by
        rcases hc : traceCompletions (selectStep c s e).2.1 with _ | ⟨o, tail⟩
        · rfl
        · have hmem : TraceItem.complete o ∈ (selectStep c s e).2.1 :=
            (mem_traceCompletions _ _).mp (by rw [hc]; exact List.mem_cons_self o tail)
          rcases selectStep_complete c s e o hmem with ⟨hbr, _⟩
          rw [hf] at hbr
          cases hbr
      rcases ih (selectStep c s e).1 with hl | ⟨t1, o, heq, ht1, hpos⟩
      · left
        rw [runLoop_cons_cont c s e rest hf]
        show traceCompletions ((selectStep c s e).2.1 ++
          (runLoop c (selectStep c s e).1 rest).2) = []
        rw [traceCompletions_append, hni, hl]
        rfl
      · right
        refine ⟨(selectStep c s e).2.1 ++ t1, o, ?_, ?_, hpos⟩
        · rw [runLoop_cons_cont c s e rest hf]
          show (selectStep c s e).2.1 ++ (runLoop c (selectStep c s e).1 rest).2 =
            (selectStep c s e).2.1 ++ t1 ++ [TraceItem.complete o]
          rw [heq, List.append_assoc]
        · rw [traceCompletions_append, hni, ht1]
          rfl

/-- C2: the one-shot hand-off of the output storage happens exactly on the
`Data` event whose received range brings the downloaded set's contained
length from offset 0 up to the file size; the output is seeked to offset 0
before the hand-off, the handler returns `Break` so the event loop
terminates, and over any run there is at most one hand-off, after which
nothing further — in particular no range request — is ever emitted. -/
theorem claim_c2_completion (c : Consts) (s : EngineState) (events : List LoopEvent) :
    (∀ e o, TraceItem.complete o ∈ (selectStep c s e).2.1 →
      (selectStep c s e).2.2 = ControlFlow.Break ∧ o.pos = 0 ∧
        s.complete_tx = true ∧
        (selectStep c s e).2.1 = [TraceItem.complete o] ∧
        ∃ d, e = LoopEvent.fileData (some (ReceivedData.Data d)) ∧
          s.file_size ≤ (s.download_status.downloaded.add_range
            ⟨d.offset, d.size⟩).contained_length_from_value 0) ∧
      (∀ d o, s.output = some o → s.complete_tx = true →
        s.file_size ≤ (s.download_status.downloaded.add_range
          ⟨d.offset, d.size⟩).contained_length_from_value 0 →
        (selectStep c s (LoopEvent.fileData (some (ReceivedData.Data d)))).2.1 =
            [TraceItem.complete ⟨0, o.writes ++ [(d.offset, d.size)]⟩] ∧
          (selectStep c s (LoopEvent.fileData (some (ReceivedData.Data d)))).2.2 =
            ControlFlow.Break) ∧
      (traceCompletions (runLoop c s events).2 = [] ∨
        ∃ t1 o, (runLoop c s events).2 = t1 ++ [TraceItem.complete o] ∧
          traceCompletions t1 = [] ∧ o.pos = 0) := by
  refine ⟨selectStep_complete c s, ?_, runLoop_complete_shape c events s⟩
  intro d o ho htx hfull
  constructor
  · simp only [selectStep, handle_file_data]
    rw [if_pos hfull]
    simp only [finish, htx, ho, Option.getD_some]
  · simp only [selectStep, handle_file_data]
    rw [if_pos hfull]

/-- Witness for C2: a 4-byte file whose single 4-byte chunk arrives; the loop
emits exactly one hand-off, positioned at 0, breaks at that event, and a later
queued `Fetch` command is never processed. -/
theorem claim_c2_completion_witness :
    (mkState 4 0 ⟨[]⟩ ⟨[]⟩).output = some ⟨0, []⟩ ∧
      (mkState 4 0 ⟨[]⟩ ⟨[]⟩).complete_tx = true ∧
      (mkState 4 0 ⟨[]⟩ ⟨[]⟩).file_size ≤
        ((mkState 4 0 ⟨[]⟩ ⟨[]⟩).download_status.downloaded.add_range
          ⟨0, 4⟩).contained_length_from_value 0 ∧
      ((selectStep ⟨4, 4⟩ (mkState 4 0 ⟨[]⟩ ⟨[]⟩)
          (LoopEvent.fileData (some (ReceivedData.Data ⟨0, 4⟩)))).2.1 =
        [TraceItem.complete ⟨0, [(0, 4)]⟩]) ∧
      ((selectStep ⟨4, 4⟩ (mkState 4 0 ⟨[]⟩ ⟨[]⟩)
          (LoopEvent.fileData (some (ReceivedData.Data ⟨0, 4⟩)))).2.2 =
        ControlFlow.Break) ∧
      (runLoop ⟨4, 4⟩ (mkState 4 0 ⟨[]⟩ ⟨[]⟩)
          [LoopEvent.fileData (some (ReceivedData.Data ⟨0, 4⟩)),
            LoopEvent.command (some (StreamLoaderCommand.Fetch 0 4))]).2 =
        [TraceItem.complete ⟨0, [(0, 4)]⟩] :=
  ⟨rfl, rfl, by decide,
    ((claim_c2_completion ⟨4, 4⟩ (mkState 4 0 ⟨[]⟩ ⟨[]⟩) []).2.1 ⟨0, 4⟩ ⟨0, []⟩
      rfl rfl (by decide)).1,
    ((claim_c2_completion ⟨4, 4⟩ (mkState 4 0 ⟨[]⟩ ⟨[]⟩) []).2.1 ⟨0, 4⟩ ⟨0, []⟩
      rfl rfl (by decide)).2,
    by decide⟩

theorem ranges_cons_of_not_empty (A : RangeSet) (h : A.is_empty = false) :
    ∃ q tail, A.ranges = q :: tail := by
  rcases hA : A.ranges with _ | ⟨q, tail⟩
  · unfold RangeSet.is_empty at h
    rw [hA] at h
    cases h
  · exact ⟨q, tail, rfl⟩

theorem get_range_zero_mem (A : RangeSet) (h : A.is_empty = false) :
    A.get_range 0 ∈ A.ranges := by
  rcases ranges_cons_of_not_empty A h with ⟨q, tail, hq⟩
  unfold RangeSet.get_range
  rw [hq]
  exact List.mem_cons_self q tail

theorem pos_missingData (s : EngineState) : (missingData s).Pos :=
  pos_subtract_range_set _ _ (pos_subtract_range_set _ _ (inv_new_add_range _).2)

theorem tail_first (s : EngineState) (h : (tailEnd s).is_empty = false) :
    0 < ((tailEnd s).get_range 0).length ∧
      s.read_position ≤ ((tailEnd s).get_range 0).start ∧
      (missingData s).memB ((tailEnd s).get_range 0).start = true := by
  have hm := get_range_zero_mem _ h
  rcases intersection_ranges_sound _ _ _ hm with ⟨hpos, hsound⟩
  have hc := containsB_start _ hpos
  rcases hsound _ hc with ⟨hbase, hmiss⟩
  refine ⟨hpos, ?_, hmiss⟩
  rcases (memB_add_range _ _ _).mp hbase with hnew | hcont
  · simp [RangeSet.new, RangeSet.memB] at hnew
  · exact ((Range.containsB_eq _ _).mp hcont).1

theorem missing_first (s : EngineState) (h : (missingData s).is_empty = false) :
    0 < ((missingData s).get_range 0).length ∧
      (missingData s).memB ((missingData s).get_range 0).start = true := by
  have hm := get_range_zero_mem _ h
  have hpos := pos_missingData s _ hm
  exact ⟨hpos, memB_of_mem_ranges _ _ hm _ (containsB_start _ hpos)⟩

theorem pre_fetch_acc (c : Consts) :
    ∀ (reqsToGo : Nat) (s : EngineState) (bytesToGo : Nat),
      (pre_fetch_more_data c s bytesToGo reqsToGo).2.2.length ≤ reqsToGo ∧
        ((pre_fetch_more_data c s bytesToGo reqsToGo).2.2.map Prod.snd).sum ≤ bytesToGo ∧
        (∀ p ∈ (pre_fetch_more_data c s bytesToGo reqsToGo).2.2, 0 < p.2) := by
  intro reqsToGo
  induction reqsToGo with
  | zero =>
    intro s bytesToGo
    exact ⟨Nat.le_refl 0, Nat.zero_le _, fun p hp => absurd hp (List.not_mem_nil p)⟩
  | succ n ih =>
    intro s bytesToGo
    simp only [pre_fetch_more_data]
    split_ifs with hb ht hm
    · exact ⟨Nat.zero_le _, Nat.zero_le _, fun p hp => absurd hp (List.not_mem_nil p)⟩
    · have hpos := (tail_first s ht).1
      rcases ih (download_range c s ((tailEnd s).get_range 0).start
          (min ((tailEnd s).get_range 0).length bytesToGo)).1
          (bytesToGo - min ((tailEnd s).get_range 0).length bytesToGo) with ⟨ihl, ihs, ihp⟩
      refine ⟨?_, ?_, ?_⟩
      · simpa using Nat.succ_le_succ ihl
      · simp only [List.map_cons, List.sum_cons]
        omega
      · intro p hp
        rcases List.mem_cons.mp hp with rfl | hp'
        · simp only
          omega
        · exact ihp p hp'
    · have hpos := (missing_first s hm).1
      rcases ih (download_range c s ((missingData s).get_range 0).start
          (min ((missingData s).get_range 0).length bytesToGo)).1
          (bytesToGo - min ((missingData s).get_range 0).length bytesToGo) with ⟨ihl, ihs, ihp⟩
      refine ⟨?_, ?_, ?_⟩
      · simpa using Nat.succ_le_succ ihl
      · simp only [List.map_cons, List.sum_cons]
        omega
      · intro p hp
        rcases List.mem_cons.mp hp with rfl | hp'
        · simp only
          omega
        · exact ihp p hp'
    · exact ⟨Nat.zero_le _, Nat.zero_le _, fun p hp => absurd hp (List.not_mem_nil p)⟩

/-- C7: each `pre_fetch_more_data` iteration spends one request slot and the
budget-clamped length of one range, so the planner makes at most
`max_requests_to_send` calls whose clamped lengths sum to at most `bytes`;
when anything after the read cursor is missing, the first call requests the
first range of `tail = [read_cursor, file_size) ∩ missing` — whose start lies
at or after the read cursor and is missing — clamped to the byte budget;
only when the tail is exhausted does it request the first range of `missing`;
and the loop stops when either budget is exhausted or nothing is missing. -/
theorem claim_c7_prefetch_planner (c : Consts) (s : EngineState) (bytes reqs : Nat) :
    ((pre_fetch_more_data c s bytes reqs).2.2.length ≤ reqs) ∧
      (((pre_fetch_more_data c s bytes reqs).2.2.map Prod.snd).sum ≤ bytes) ∧
      (∀ p ∈ (pre_fetch_more_data c s bytes reqs).2.2, 0 < p.2) ∧
      (reqs = 0 ∨ bytes = 0 → pre_fetch_more_data c s bytes reqs = (s, [], [])) ∧
      (0 < bytes → 0 < reqs →
        ((tailEnd s).is_empty = false →
          (pre_fetch_more_data c s bytes reqs).2.2.head? =
              some (((tailEnd s).get_range 0).start,
                min ((tailEnd s).get_range 0).length bytes) ∧
            s.read_position ≤ ((tailEnd s).get_range 0).start ∧
            (missingData s).memB ((tailEnd s).get_range 0).start = true) ∧
          ((tailEnd s).is_empty = true → (missingData s).is_empty = false →
            (pre_fetch_more_data c s bytes reqs).2.2.head? =
              some (((missingData s).get_range 0).start,
                min ((missingData s).get_range 0).length bytes)) ∧
          ((tailEnd s).is_empty = true → (missingData s).is_empty = true →
            pre_fetch_more_data c s bytes reqs = (s, [], []))) := by
  rcases pre_fetch_acc c reqs s bytes with ⟨h1, h2, h3⟩
  refine ⟨h1, h2, h3, ?_, ?_⟩
  · rintro (rfl | rfl)
    · rfl
    · match reqs with
      | 0 => rfl
      | n + 1 =>
        simp only [pre_fetch_more_data]
        rw [if_pos trivial]
  · intro hbz hrz
    match reqs with
    | 0 => exact absurd hrz (Nat.lt_irrefl 0)
    | n + 1 =>
      refine ⟨?_, ?_, ?_⟩
      · intro ht
        rcases tail_first s ht with ⟨_, hrp, hmiss⟩
        refine ⟨?_, hrp, hmiss⟩
        simp only [pre_fetch_more_data]
        rw [if_neg (by omega : ¬ bytes = 0), if_pos ht]
        rfl
      · intro ht hm
        simp only [pre_fetch_more_data]
        rw [if_neg (by omega : ¬ bytes = 0),
          if_neg (by rw [ht]; simp : ¬ (tailEnd s).is_empty = false), if_pos hm]
        rfl
      · intro ht hm
        simp only [pre_fetch_more_data]
        rw [if_neg (by omega : ¬ bytes = 0),
          if_neg (by rw [ht]; simp : ¬ (tailEnd s).is_empty = false),
          if_neg (by rw [hm]; simp : ¬ (missingData s).is_empty = false)]

/-- Witness for C7: in `exState` (16-byte file, `[0,4)` downloaded, `[4,8)`
requested) with the read cursor at 8, the missing tail is `[8, 16)`; one
planner pass with an 8-byte budget and 2 request slots makes exactly one call,
`(8, 8)`, at the read cursor. -/
theorem claim_c7_prefetch_planner_witness :
    (pre_fetch_more_data ⟨4, 4⟩ { exState with read_position := 8 } 8 2).2.2.length ≤ 2 ∧
      0 < (8 : Nat) ∧ 0 < (2 : Nat) ∧
      (tailEnd { exState with read_position := 8 }).is_empty = false ∧
      (pre_fetch_more_data ⟨4, 4⟩ { exState with read_position := 8 } 8 2).2.2.head? =
        some ((tailEnd { exState with read_position := 8 }).get_range 0 |>.start,
          min ((tailEnd { exState with read_position := 8 }).get_range 0).length 8) ∧
      ({ exState with read_position := 8 } : EngineState).read_position ≤
        ((tailEnd { exState with read_position := 8 }).get_range 0).start :=
  ⟨(claim_c7_prefetch_planner ⟨4, 4⟩ { exState with read_position := 8 } 8 2).1,
    by decide, by decide, by decide,
    (((claim_c7_prefetch_planner ⟨4, 4⟩ { exState with read_position := 8 } 8 2).2.2.2.2
        (by decide) (by decide)).1 (by decide)).1,
    (((claim_c7_prefetch_planner ⟨4, 4⟩ { exState with read_position := 8 } 8 2).2.2.2.2
        (by decide) (by decide)).1 (by decide)).2.1⟩

end Librespot
